import Mathlib

/-!
Shallow embedding of the gold-price extraction and aggregation core of
`xinlang.py`, together with theorems checking the specification's claims.

Text is modelled as `List Char`.  The two table-row regular expressions of
`parse_complete_gold_data` contain no genuinely nondeterministic pieces
(every starred class is followed by a literal it cannot overlap with), so
each is embedded as a deterministic matcher, and `re.findall` as a
left-to-right scan that restarts after the end of each match.
-/

namespace PyGold

/-- Whitespace characters matched by the regex class \s (ASCII range). -/
def isSpace (c : Char) : Bool :=
  c = ' ' || c = '\t' || c = '\n' || c = '\r' || c = '\x0b' || c = '\x0c'

/-- Decimal digit, the regex class \d. -/
def isDigit (c : Char) : Bool := c.isDigit

/-- The character class [^>] of both row patterns. -/
def notGt (c : Char) : Bool := c ≠ '>'

/-- The character class [^<] of both row patterns. -/
def notLt (c : Char) : Bool := c ≠ '<'

/-- Python str.strip(): drop whitespace from both ends. -/
def pyStrip (s : List Char) : List Char :=
  ((s.dropWhile isSpace).reverse.dropWhile isSpace).reverse

/-- Match a literal character sequence at the head of the input,
returning the rest of the input on success. -/
def lit : List Char → List Char → Option (List Char)
  | [], cs => some cs
  | _ :: _, [] => none
  | l :: ls, c :: cs => if c = l then lit ls cs else none

/-- One cell of the bare pattern: the literal td-open tag with [^>]*
attributes, then the group ([^<]*), then the literal td-close tag;
this is one `<td[^>]*>([^<]*)</td>` group of the first regex. -/
def matchCell1 (cs0 : List Char) : Option (List Char × List Char) :=
  match lit ['<', 't', 'd'] cs0 with
  | none => none
  | some cs1 =>
    match lit ['>'] (cs1.dropWhile notGt) with
    | none => none
    | some cs2 =>
      match lit ['<', '/', 't', 'd', '>'] (cs2.dropWhile notLt) with
      | none => none
      | some cs3 => some (cs2.takeWhile notLt, cs3)

/-- One cell of the wrapped pattern,
`<td[^>]*><div[^>]*>([^<]*)</div></td>` of the second regex. -/
def matchCell2 (cs0 : List Char) : Option (List Char × List Char) :=
  match lit ['<', 't', 'd'] cs0 with
  | none => none
  | some cs1 =>
    match lit ['>'] (cs1.dropWhile notGt) with
    | none => none
    | some cs2 =>
      match lit ['<', 'd', 'i', 'v'] cs2 with
      | none => none
      | some cs3 =>
        match lit ['>'] (cs3.dropWhile notGt) with
        | none => none
        | some cs4 =>
          match lit ['<', '/', 'd', 'i', 'v', '>', '<', '/', 't', 'd', '>']
              (cs4.dropWhile notLt) with
          | none => none
          | some cs5 => some (cs4.takeWhile notLt, cs5)

/-- Match `n` further cells, each preceded by the separator \s*. -/
def matchMore (cell : List Char → Option (List Char × List Char)) :
    Nat → List Char → Option (List (List Char) × List Char)
  | 0, cs => some ([], cs)
  | n + 1, cs =>
    match cell (cs.dropWhile isSpace) with
    | none => none
    | some (cap, cs1) =>
      match matchMore cell n cs1 with
      | none => none
      | some (caps, cs2) => some (cap :: caps, cs2)

/-- Match a full 8-cell row at the current position: a first cell and
seven more cells each preceded by \s*. -/
def matchRowAt (cell : List Char → Option (List Char × List Char))
    (cs : List Char) : Option (List (List Char) × List Char) :=
  match cell cs with
  | none => none
  | some (cap, cs1) =>
    match matchMore cell 7 cs1 with
    | none => none
    | some (caps, cs2) => some (cap :: caps, cs2)

/-- The first regex of parse_complete_gold_data (bare cells). -/
def matchRow1At : List Char → Option (List (List Char) × List Char) :=
  matchRowAt matchCell1

/-- The second regex of parse_complete_gold_data (div-wrapped cells). -/
def matchRow2At : List Char → Option (List (List Char) × List Char) :=
  matchRowAt matchCell2

/-- Fuel-indexed scanner: at each position try the row matcher; on
success emit the captured groups and resume after the match, otherwise
advance one character.  This is re.findall for our patterns. -/
def findAllGo (m : List Char → Option (List (List Char) × List Char)) :
    Nat → List Char → List (List (List Char))
  | 0, _ => []
  | fuel + 1, cs =>
    match m cs with
    | some (caps, rest) => caps :: findAllGo m fuel rest
    | none =>
      match cs with
      | [] => []
      | _ :: t => findAllGo m fuel t

/-- re.findall(pattern, text): the fuel `length + 1` is always enough
because every successful match consumes at least one character. -/
def findAll (m : List Char → Option (List (List Char) × List Char))
    (cs : List Char) : List (List (List Char)) :=
  findAllGo m (cs.length + 1) cs

/-- A matcher consumes input: a successful match leaves a strictly
shorter remainder. -/
def Consumes (m : List Char → Option (List (List Char) × List Char)) : Prop :=
  ∀ cs caps rest, m cs = some (caps, rest) → rest.length < cs.length

theorem lit_length : ∀ {l cs rest : List Char},
    lit l cs = some rest → rest.length + l.length = cs.length := by
  intro l
  induction l with
  | nil =>
    intro cs rest h
    simp only [lit, Option.some.injEq] at h
    subst h; simp
  | cons a l ih =>
    intro cs rest h
    cases cs with
    | nil => simp [lit] at h
    | cons c cs =>
      simp only [lit] at h
      split at h
      · have := ih h
        simp only [List.length_cons]
        omega
      · exact absurd h (by simp)

theorem length_dropWhile_le (p : Char → Bool) (l : List Char) :
    (l.dropWhile p).length ≤ l.length := by
  induction l with
  | nil => simp
  | cons a l ih =>
    by_cases h : p a
    · simp only [List.dropWhile_cons, h, if_true, List.length_cons]
      omega
    · simp [List.dropWhile_cons, h]

theorem matchCell1_length {cs cap rest : List Char}
    (h : matchCell1 cs = some (cap, rest)) : rest.length + 9 ≤ cs.length := by
  unfold matchCell1 at h
  split at h
  · exact absurd h (by simp)
  next cs1 e1 =>
    split at h
    · exact absurd h (by simp)
    next cs2 e2 =>
      split at h
      · exact absurd h (by simp)
      next cs3 e3 =>
        simp only [Option.some.injEq, Prod.mk.injEq] at h
        obtain ⟨-, h2⟩ := h
        have l1 := lit_length e1
        have l2 := lit_length e2
        have l3 := lit_length e3
        have d1 := length_dropWhile_le notGt cs1
        have d2 := length_dropWhile_le notLt cs2
        subst h2
        simp only [List.length_cons, List.length_nil] at l1 l2 l3
        omega

theorem matchCell2_length {cs cap rest : List Char}
    (h : matchCell2 cs = some (cap, rest)) : rest.length + 9 ≤ cs.length := by
  unfold matchCell2 at h
  split at h
  · exact absurd h (by simp)
  next cs1 e1 =>
    split at h
    · exact absurd h (by simp)
    next cs2 e2 =>
      split at h
      · exact absurd h (by simp)
      next cs3 e3 =>
        split at h
        · exact absurd h (by simp)
        next cs4 e4 =>
          split at h
          · exact absurd h (by simp)
          next cs5 e5 =>
            simp only [Option.some.injEq, Prod.mk.injEq] at h
            obtain ⟨-, h2⟩ := h
            have l1 := lit_length e1
            have l2 := lit_length e2
            have l3 := lit_length e3
            have l4 := lit_length e4
            have l5 := lit_length e5
            have d1 := length_dropWhile_le notGt cs1
            have d2 := length_dropWhile_le notGt cs3
            have d3 := length_dropWhile_le notLt cs4
            subst h2
            simp only [List.length_cons, List.length_nil] at l1 l2 l3 l4 l5
            omega

theorem matchMore_length
    {cell : List Char → Option (List Char × List Char)}
    (hcell : ∀ cs cap rest, cell cs = some (cap, rest) → rest.length < cs.length) :
    ∀ n cs caps rest, matchMore cell n cs = some (caps, rest) →
      rest.length ≤ cs.length ∧ caps.length = n := by
  intro n
  induction n with
  | zero =>
    intro cs caps rest h
    simp only [matchMore, Option.some.injEq, Prod.mk.injEq] at h
    obtain ⟨h1, h2⟩ := h
    simp [← h1, ← h2]
  | succ n ih =>
    intro cs caps rest h
    simp only [matchMore] at h
    split at h
    · exact absurd h (by simp)
    next cap1 cs1 e1 =>
      split at h
      · exact absurd h (by simp)
      next caps2 cs2 e2 =>
        simp only [Option.some.injEq, Prod.mk.injEq] at h
        obtain ⟨hcaps, hrest⟩ := h
        have hc := hcell _ _ _ e1
        have hd := length_dropWhile_le isSpace cs
        have hi := ih cs1 caps2 cs2 e2
        subst hrest
        refine ⟨by omega, ?_⟩
        simp [← hcaps, hi.2]

theorem matchRowAt_length
    {cell : List Char → Option (List Char × List Char)}
    (hcell : ∀ cs cap rest, cell cs = some (cap, rest) → rest.length < cs.length) :
    ∀ cs caps rest, matchRowAt cell cs = some (caps, rest) →
      rest.length < cs.length ∧ caps.length = 8 := by
  intro cs caps rest h
  simp only [matchRowAt] at h
  split at h
  · exact absurd h (by simp)
  next cap1 cs1 e1 =>
    split at h
    · exact absurd h (by simp)
    next caps2 cs2 e2 =>
      simp only [Option.some.injEq, Prod.mk.injEq] at h
      obtain ⟨hcaps, hrest⟩ := h
      have hc := hcell _ _ _ e1
      have hi := matchMore_length hcell 7 cs1 caps2 cs2 e2
      subst hrest
      refine ⟨by omega, ?_⟩
      simp [← hcaps, hi.2]

theorem matchRow1At_consumes : Consumes matchRow1At := by
  intro cs caps rest h
  exact (matchRowAt_length (fun a b c hh => by have := matchCell1_length hh; omega)
    cs caps rest h).1

theorem matchRow2At_consumes : Consumes matchRow2At := by
  intro cs caps rest h
  exact (matchRowAt_length (fun a b c hh => by have := matchCell2_length hh; omega)
    cs caps rest h).1

theorem findAllGo_congr
    {m : List Char → Option (List (List Char) × List Char)}
    (hm : Consumes m) :
    ∀ f1 f2 cs, cs.length < f1 → cs.length < f2 →
      findAllGo m f1 cs = findAllGo m f2 cs := by
  intro f1
  induction f1 with
  | zero => intro f2 cs h1; omega
  | succ a ih =>
    intro f2 cs h1 h2
    cases f2 with
    | zero => omega
    | succ b =>
      simp only [findAllGo]
      cases hmc : m cs with
      | some pr =>
        obtain ⟨caps, rest⟩ := pr
        have := hm cs caps rest hmc
        simp only
        rw [ih b rest (by omega) (by omega)]
      | none =>
        cases cs with
        | nil => simp
        | cons c t =>
          simp only [List.length_cons] at h1 h2
          exact ih b t (by omega) (by omega)

theorem findAllGo_step
    {m : List Char → Option (List (List Char) × List Char)}
    {cs rest : List Char} {capss : List (List Char)} {n : Nat}
    (h : m cs = some (capss, rest)) :
    findAllGo m (n + 1) cs = capss :: findAllGo m n rest := by
  simp only [findAllGo, h]

theorem findAll_match
    {m : List Char → Option (List (List Char) × List Char)}
    (hm : Consumes m) {cs rest : List Char}
    {capss : List (List Char)}
    (h : m cs = some (capss, rest)) :
    findAll m cs = capss :: findAll m rest := by
  have hlt := hm cs capss rest h
  rw [findAll, findAllGo_step h,
    findAllGo_congr hm cs.length (rest.length + 1) rest (by omega) (by omega)]
  rfl

theorem findAll_skip
    {m : List Char → Option (List (List Char) × List Char)}
    {c : Char} {cs : List Char}
    (h : m (c :: cs) = none) :
    findAll m (c :: cs) = findAll m cs := by
  simp only [findAll, List.length_cons, findAllGo, h]

theorem findAll_nil
    {m : List Char → Option (List (List Char) × List Char)}
    (hm : Consumes m) : findAll m [] = [] := by
  simp only [findAll, findAllGo]
  cases h : m [] with
  | none => simp
  | some pr =>
    obtain ⟨caps, rest⟩ := pr
    have := hm [] caps rest h
    simp at this

/-! ## Category registry (GoldType, GoldDataConfig) -/

/-- The GoldType enum. -/
inductive GoldType
  | jewelry
  | physical
  | gold_bar
deriving DecidableEq

/-- The .value string of each enum member. -/
def GoldType.value : GoldType → String
  | .jewelry => "jewelry"
  | .physical => "physical"
  | .gold_bar => "gold_bar"

/-- One category configuration; `stem` models the filename_prefix
entry, `pp`/`pz` the url_params entry. -/
structure GoldConfig where
  name : String
  stem : String
  pp : Nat
  pz : Nat
  description : String
deriving DecidableEq

def jewelryConfig : GoldConfig :=
  ⟨"首饰黄金", "jewelry_gold", 0, 15, "各大品牌首饰黄金价格数据"⟩

def physicalConfig : GoldConfig :=
  ⟨"实物黄金", "physical_gold", 0, 11, "实物黄金投资产品价格数据"⟩

def goldBarConfig : GoldConfig :=
  ⟨"金条", "gold_bar", 0, 15, "各种规格金条价格数据"⟩

/-- The GOLD_CONFIGS dictionary.  Category identifiers are modelled by
their string values, since Python does not restrict the runtime lookup
key to enum members. -/
def GOLD_CONFIGS : List (String × GoldConfig) :=
  [("jewelry", jewelryConfig), ("physical", physicalConfig),
   ("gold_bar", goldBarConfig)]

/-- GoldDataConfig.get_config: a dictionary .get with the jewelry entry
as the default value. -/
def get_config (k : String) : GoldConfig :=
  (GOLD_CONFIGS.lookup k).getD jewelryConfig

/-! ## Price-token extraction (re.search of \d+\.?\d*) -/

/-- Greedy match of \d+\.?\d* starting at a digit: the digit run, then
an optional dot together with the following digit run. -/
def grabNum (cs : List Char) : List Char :=
  let ds := cs.takeWhile isDigit
  let r0 := cs.dropWhile isDigit
  if r0.head? = some '.' then ds ++ '.' :: r0.tail.takeWhile isDigit else ds

/-- re.search(r"(\d+\.?\d*)", s): the pattern can only succeed starting
at a digit, and greedy matching there is deterministic, so the search
returns the token grabbed at the first digit. -/
def searchNum : List Char → Option (List Char)
  | [] => none
  | c :: cs => if isDigit c then some (grabNum (c :: cs)) else searchNum cs

def digitsToNat (ds : List Char) : Nat :=
  ds.foldl (fun n c => 10 * n + (c.toNat - 48)) 0

/-- The fractional digits of a numeric token (empty when the token has
no decimal point). -/
def parseFrac (tok : List Char) : List Char :=
  match tok.dropWhile isDigit with
  | '.' :: rest => rest
  | _ => []

/-- float() on a token of shape digits, digits., or digits.digits, as a
rational number: intpart.fracpart = (intpart·10^k + fracpart) / 10^k.
Built with mkRat rather than ℚ addition and division so that concrete
values reduce inside the kernel; parseDecimal_eq gives the usual form. -/
def parseDecimal (tok : List Char) : ℚ :=
  let ip := tok.takeWhile isDigit
  let fr := parseFrac tok
  mkRat (digitsToNat ip * 10 ^ fr.length + digitsToNat fr) (10 ^ fr.length)

theorem parseDecimal_eq (tok : List Char) :
    parseDecimal tok =
      (digitsToNat (tok.takeWhile isDigit) : ℚ) +
        (digitsToNat (parseFrac tok) : ℚ) / (10 : ℚ) ^ (parseFrac tok).length := by
  have hpow : ((10 : ℚ) ^ (parseFrac tok).length) ≠ 0 := by positivity
  simp only [parseDecimal, Rat.mkRat_eq_div]
  push_cast
  field_simp

theorem parseDecimal_nonneg (tok : List Char) : 0 ≤ parseDecimal tok := by
  rw [parseDecimal_eq]
  positivity

/-! ## Records and row normalization -/

/-- One parsed data dictionary of parse_complete_gold_data.  Field names
translate the Chinese keys 日期, 品牌, 产品, 价格, 价格_数值, 单位, 纯度,
手工费, 涨跌, 黄金类型, 黄金类型代码, 数据来源, 解析时间 in order. -/
structure Record where
  date : String
  brand : String
  product : String
  price : String
  price_value : Option ℚ
  unit : String
  purity : String
  craft_fee : String
  trend : String
  gold_type_name : String
  gold_type_code : String
  data_source : String
  parsed_at : String
deriving DecidableEq

/-- The per-row normalization step of parse_complete_gold_data: strip
the 8 captured fields, validate the 5 required fields, extract the
numeric price and build the record.  `now` stands for the
datetime.now().isoformat() call.  A tuple that is not 8 fields long
cannot reach this step from the regexes. -/
def buildRecord (gt : GoldType) (now : String) : List (List Char) → Option Record
  | [d, b, p, pr, u, pu, cf, tr] =>
    let date := pyStrip d
    let brand := pyStrip b
    let product := pyStrip p
    let price := pyStrip pr
    let unit := pyStrip u
    let purity := pyStrip pu
    let craft_fee := pyStrip cf
    let trend := pyStrip tr
    if date ≠ [] ∧ brand ≠ [] ∧ product ≠ [] ∧ price ≠ [] ∧ unit ≠ [] then
      some {
        date := String.mk date
        brand := String.mk brand
        product := String.mk product
        price := String.mk price
        price_value := (searchNum price).map parseDecimal
        unit := String.mk unit
        purity := String.mk purity
        craft_fee := String.mk craft_fee
        trend := String.mk trend
        gold_type_name := (get_config gt.value).name
        gold_type_code := gt.value
        data_source := "新浪财经"
        parsed_at := now }
    else none
  | _ => none

/-- The deduplication key: the tuple of the first four captured fields. -/
def rowKey (m : List (List Char)) : List (List Char) := m.take 4

/-- The dedup loop of parse_complete_gold_data: keep a match only if it
has at least 7 groups and its key has not been seen before. -/
def dedupGo : List (List (List Char)) → List (List (List Char)) →
    List (List (List Char))
  | [], _ => []
  | m :: ms, seen =>
    if 7 ≤ m.length then
      if rowKey m ∈ seen then dedupGo ms seen
      else m :: dedupGo ms (rowKey m :: seen)
    else dedupGo ms seen

def dedupMatches (ms : List (List (List Char))) : List (List (List Char)) :=
  dedupGo ms []

/-- parse_complete_gold_data: run both patterns over the document, pool
and deduplicate the matches, then normalize each row. -/
def parse_complete_gold_data (html : List Char) (gt : GoldType) (now : String) :
    List Record :=
  let matches1 := findAll matchRow1At html
  let matches2 := findAll matchRow2At html
  let all_matches := dedupMatches (matches1 ++ matches2)
  all_matches.filterMap (buildRecord gt now)

/-! ## Aggregation (analyze_gold_data) -/

/-- Add one key occurrence to an association list of counts, preserving
first-insertion key order; the update step of collections.Counter. -/
def bump : List (String × Nat) → String → List (String × Nat)
  | [], k => [(k, 1)]
  | (a, n) :: t, k => if a = k then (a, n + 1) :: t else (a, n) :: bump t k

/-- collections.Counter of a list: counts keyed in first-occurrence
order. -/
def counter (l : List String) : List (String × Nat) := l.foldl bump []

/-- Stable insertion keeping counts in descending order; equal counts
keep their existing relative position. -/
def insertDesc (x : String × Nat) : List (String × Nat) → List (String × Nat)
  | [] => [x]
  | y :: t => if y.2 < x.2 then x :: y :: t else y :: insertDesc x t

/-- Counter.most_common(): entries sorted by descending count, ties in
first-insertion order (Python sort is stable). -/
def mostCommon (al : List (String × Nat)) : List (String × Nat) :=
  al.foldl (fun acc x => insertDesc x acc) []

/-- Maximum of a list of rationals; Python max() never sees an empty
list here because the caller guards on it. -/
def pyMaxQ : List ℚ → ℚ
  | [] => 0
  | p :: ps => ps.foldl max p

def pyMinQ : List ℚ → ℚ
  | [] => 0
  | p :: ps => ps.foldl min p

/-- Lexicographic maximum of a list of strings (Python max on str). -/
def pyMaxS : List String → String
  | [] => ""
  | s :: ss => ss.foldl max s

def pyMinS : List String → String
  | [] => ""
  | s :: ss => ss.foldl min s

/-- Round to the nearest integer with ties to even, the rounding used
when Python formats a float with "%.1f". -/
def roundHalfEven (q : ℚ) : ℤ :=
  if q - ⌊q⌋ = 1 / 2 then (if ⌊q⌋ % 2 = 0 then ⌊q⌋ else ⌊q⌋ + 1)
  else round q

/-- Python f"{q:.1f}" for the nonnegative values that occur here: one
digit after the decimal point. -/
def fmt1 (q : ℚ) : String :=
  let n := (roundHalfEven (10 * q)).toNat
  toString (n / 10) ++ "." ++ toString (n % 10)

/-- The 价格分析 section: statistics over the present price values,
or absent when no price value is present. -/
structure PriceStats where
  max_price : ℚ
  min_price : ℚ
  avg_price : ℚ
  median_price : ℚ
  price_count : Nat
deriving DecidableEq

/-- price_analysis of analyze_gold_data. -/
def price_analysis (prices : List ℚ) : Option PriceStats :=
  if prices = [] then none
  else some {
    max_price := pyMaxQ prices
    min_price := pyMinQ prices
    avg_price := prices.sum / (prices.length : ℚ)
    median_price := (List.insertionSort (· ≤ ·) prices).getD (prices.length / 2) 0
    price_count := prices.length }

/-- The full analysis dictionary returned for non-empty input: 数据概览,
品牌分析, 产品分析, 价格分析, 趋势分析 and 日期分析 in flattened form. -/
structure Analysis where
  total_records : Nat
  date_range : String
  brand_count : Nat
  product_count : Nat
  valid_price_count : Nat
  brand_stats : List (String × Nat)
  brand_top : List (String × Nat)
  product_stats : List (String × Nat)
  product_top : List (String × Nat)
  price_stats : Option PriceStats
  trend_stats : List (String × Nat)
  trend_ratios : List (String × String)
  date_stats : List (String × Nat)
  date_count : Nat
deriving DecidableEq

/-- The report built for a non-empty collection (the body of
analyze_gold_data after its empty-input guard). -/
def analyze_body (gold_data : List Record) : Analysis :=
  let total_records := gold_data.length
    let brands := gold_data.map Record.brand
    let products := gold_data.map Record.product
    let prices := gold_data.filterMap Record.price_value
    let trends := gold_data.map Record.trend
    let dates := gold_data.map Record.date
    let brand_counts := counter brands
    let product_counts := counter products
    let trend_counts := counter trends
    let date_counts := counter dates
    { total_records := total_records
      date_range :=
        if dates ≠ [] then pyMinS dates ++ " 至 " ++ pyMaxS dates else "无数据"
      brand_count := brand_counts.length
      product_count := product_counts.length
      valid_price_count := prices.length
      brand_stats := mostCommon brand_counts
      brand_top := (mostCommon brand_counts).take 10
      product_stats := mostCommon product_counts
      product_top := (mostCommon product_counts).take 10
      price_stats := price_analysis prices
      trend_stats := trend_counts
      trend_ratios := trend_counts.map
        (fun kv => (kv.1, fmt1 ((kv.2 : ℚ) / (total_records : ℚ) * 100) ++ "%"))
      date_stats := mostCommon date_counts
      date_count := date_counts.length }

/-- analyze_gold_data: `return {}` on empty input is modelled as `none`,
the full report as `some`. -/
def analyze_gold_data (gold_data : List Record) : Option Analysis :=
  if gold_data = [] then none else some (analyze_body gold_data)

theorem analyze_inv {gold_data : List Record} {a : Analysis}
    (h : analyze_gold_data gold_data = some a) :
    gold_data ≠ [] ∧ a = analyze_body gold_data := by
  by_cases hgd : gold_data = []
  · rw [analyze_gold_data, if_pos hgd] at h
    exact absurd h (by simp)
  · rw [analyze_gold_data, if_neg hgd] at h
    injection h with h
    exact ⟨hgd, h.symm⟩

/-! ## Helper lemmas and concrete inputs -/

theorem mk_ne_empty {l : List Char} (h : l ≠ []) : String.mk l ≠ "" := by
  intro he
  apply h
  have hd : (String.mk l).data = ("" : String).data := by rw [he]
  simpa using hd

/-- An inert record used only as a getD default in witnesses. -/
def emptyRecord : Record :=
  { date := "", brand := "", product := "", price := "", price_value := none,
    unit := "", purity := "", craft_fee := "", trend := "", gold_type_name := "",
    gold_type_code := "", data_source := "", parsed_at := "" }

/-- A fixed normalization timestamp used in concrete examples. -/
def tNow : String := "2025-09-17T12:00:00"

/-- An unregistered category identifier. -/
def badKey : String := "platinum"

def goldBarKey : String := "gold_bar"

/-- The spec §8 example row, as the 8 captured raw fields. -/
def row823 : List (List Char) :=
  [ "2025-09-17".data, "周大福".data, "足金".data, "823.00".data,
    "元/克".data, "999".data, "无".data, "涨".data]

def rec823 : Record := (buildRecord GoldType.jewelry tNow row823).getD emptyRecord

/-- The record built by the normalization step when validation passes. -/
def mkRecord (gt : GoldType) (now : String)
    (d b p pr u pu cf tr : List Char) : Record :=
  { date := String.mk (pyStrip d)
    brand := String.mk (pyStrip b)
    product := String.mk (pyStrip p)
    price := String.mk (pyStrip pr)
    price_value := (searchNum (pyStrip pr)).map parseDecimal
    unit := String.mk (pyStrip u)
    purity := String.mk (pyStrip pu)
    craft_fee := String.mk (pyStrip cf)
    trend := String.mk (pyStrip tr)
    gold_type_name := (get_config gt.value).name
    gold_type_code := gt.value
    data_source := "新浪财经"
    parsed_at := now }

/-- The validation predicate of the normalization step. -/
def ValidRow (d b p pr u : List Char) : Prop :=
  pyStrip d ≠ [] ∧ pyStrip b ≠ [] ∧ pyStrip p ≠ [] ∧
    pyStrip pr ≠ [] ∧ pyStrip u ≠ []

instance (d b p pr u : List Char) : Decidable (ValidRow d b p pr u) := by
  unfold ValidRow
  infer_instance

theorem buildRecord_pos {gt : GoldType} {now : String}
    {d b p pr u pu cf tr : List Char} (hval : ValidRow d b p pr u) :
    buildRecord gt now [d, b, p, pr, u, pu, cf, tr] =
      some (mkRecord gt now d b p pr u pu cf tr) := by
  have hv : pyStrip d ≠ [] ∧ pyStrip b ≠ [] ∧ pyStrip p ≠ [] ∧
      pyStrip pr ≠ [] ∧ pyStrip u ≠ [] := hval
  simp only [buildRecord]
  rw [if_pos hv]
  rfl

theorem buildRecord_neg {gt : GoldType} {now : String}
    {d b p pr u pu cf tr : List Char} (hval : ¬ ValidRow d b p pr u) :
    buildRecord gt now [d, b, p, pr, u, pu, cf, tr] = none := by
  have hv : ¬(pyStrip d ≠ [] ∧ pyStrip b ≠ [] ∧ pyStrip p ≠ [] ∧
      pyStrip pr ≠ [] ∧ pyStrip u ≠ []) := hval
  simp only [buildRecord]
  rw [if_neg hv]

theorem buildRecord_inv {gt : GoldType} {now : String}
    {d b p pr u pu cf tr : List Char} {rec : Record}
    (h : buildRecord gt now [d, b, p, pr, u, pu, cf, tr] = some rec) :
    ValidRow d b p pr u ∧ rec = mkRecord gt now d b p pr u pu cf tr := by
  by_cases hval : ValidRow d b p pr u
  · rw [buildRecord_pos hval] at h
    injection h with h
    exact ⟨hval, h.symm⟩
  · rw [buildRecord_neg hval] at h
    exact absurd h (by simp)

/-! ## Claim C1: configuration lookup for unregistered identifiers -/

/-- Claim C1 counterexample: the identifier "platinum" is outside the
fixed registry, yet the lookup used by extraction and normalization does
not propagate a hard error — it returns the jewelry configuration. -/
theorem C1_counterexample :
    GOLD_CONFIGS.lookup badKey = none ∧ get_config badKey = jewelryConfig := by
  constructor
  · rfl
  · rfl

/-- Claim C1 (amended): for every registered identifier get_config
returns that category's configuration; for every identifier outside the
registry it falls back to the jewelry configuration instead of raising. -/
theorem C1_get_config_fallback (k : String) (cfg : GoldConfig) :
    (GOLD_CONFIGS.lookup k = some cfg → get_config k = cfg) ∧
    (GOLD_CONFIGS.lookup k = none → get_config k = jewelryConfig) := by
  constructor <;> intro h <;> simp [get_config, h]

/-- Claim C1 witness: the amended statement applied at a registered and
at an unregistered identifier. -/
theorem C1_witness :
    get_config goldBarKey = goldBarConfig ∧ get_config badKey = jewelryConfig :=
  ⟨(C1_get_config_fallback goldBarKey goldBarConfig).1 (by decide),
   (C1_get_config_fallback badKey goldBarConfig).2 (by decide)⟩

/-! ## Claim C2: aggregation on the empty collection -/

/-- Claim C2 counterexample: on the empty collection analyze_gold_data
returns the empty dictionary (modelled as `none`), not a report whose
overview section carries total record count 0. -/
theorem C2_counterexample : analyze_gold_data [] = none := rfl

/-- Claim C2 (amended): aggregation never raises, and it returns the
empty, structureless dictionary exactly on the empty collection; every
non-empty collection gets a full report. -/
theorem C2_empty_analysis (gold_data : List Record) :
    analyze_gold_data gold_data = none ↔ gold_data = [] := by
  by_cases h : gold_data = [] <;> simp [analyze_gold_data, h]

/-! ## Claim C5: row validation -/

/-- Claim C5: normalization trims every field and produces a Record iff
the five required fields are non-empty after trimming; a failing row is
silently discarded, and a produced Record carries the trimmed fields,
none of the five required ones empty. -/
theorem C5_validation (gt : GoldType) (now : String)
    (d b p pr u pu cf tr : List Char) :
    ((buildRecord gt now [d, b, p, pr, u, pu, cf, tr]).isSome ↔
      (pyStrip d ≠ [] ∧ pyStrip b ≠ [] ∧ pyStrip p ≠ [] ∧
        pyStrip pr ≠ [] ∧ pyStrip u ≠ [])) ∧
    (∀ rec, buildRecord gt now [d, b, p, pr, u, pu, cf, tr] = some rec →
      rec.date = String.mk (pyStrip d) ∧ rec.brand = String.mk (pyStrip b) ∧
      rec.product = String.mk (pyStrip p) ∧ rec.price = String.mk (pyStrip pr) ∧
      rec.unit = String.mk (pyStrip u) ∧ rec.purity = String.mk (pyStrip pu) ∧
      rec.craft_fee = String.mk (pyStrip cf) ∧ rec.trend = String.mk (pyStrip tr) ∧
      rec.date ≠ "" ∧ rec.brand ≠ "" ∧ rec.product ≠ "" ∧
      rec.price ≠ "" ∧ rec.unit ≠ "") := by
  by_cases hcond : pyStrip d ≠ [] ∧ pyStrip b ≠ [] ∧ pyStrip p ≠ [] ∧
      pyStrip pr ≠ [] ∧ pyStrip u ≠ []
  · refine ⟨by simp [buildRecord, hcond], ?_⟩
    intro rec hrec
    simp only [buildRecord] at hrec
    rw [if_pos hcond] at hrec
    injection hrec with hrec
    subst hrec
    obtain ⟨h1, h2, h3, h4, h5⟩ := hcond
    exact ⟨rfl, rfl, rfl, rfl, rfl, rfl, rfl, rfl,
      mk_ne_empty h1, mk_ne_empty h2, mk_ne_empty h3, mk_ne_empty h4,
      mk_ne_empty h5⟩
  · refine ⟨by simp [buildRecord, hcond], ?_⟩
    intro rec hrec
    simp [buildRecord, hcond] at hrec

/-- Claim C5 witness: the validation equivalence and the field contract
evaluated on the spec's example row. -/
theorem C5_witness :
    ((buildRecord GoldType.jewelry tNow row823).isSome ↔
      (pyStrip ("2025-09-17".data) ≠ [] ∧ pyStrip ("周大福".data) ≠ [] ∧
        pyStrip ("足金".data) ≠ [] ∧ pyStrip ("823.00".data) ≠ [] ∧
        pyStrip ("元/克".data) ≠ [])) ∧
    (rec823.date = String.mk (pyStrip ("2025-09-17".data)) ∧
      rec823.brand = String.mk (pyStrip ("周大福".data)) ∧
      rec823.product = String.mk (pyStrip ("足金".data)) ∧
      rec823.price = String.mk (pyStrip ("823.00".data)) ∧
      rec823.unit = String.mk (pyStrip ("元/克".data)) ∧
      rec823.purity = String.mk (pyStrip ("999".data)) ∧
      rec823.craft_fee = String.mk (pyStrip ("无".data)) ∧
      rec823.trend = String.mk (pyStrip ("涨".data)) ∧
      rec823.date ≠ "" ∧ rec823.brand ≠ "" ∧ rec823.product ≠ "" ∧
      rec823.price ≠ "" ∧ rec823.unit ≠ "") :=
  ⟨(C5_validation GoldType.jewelry tNow ("2025-09-17".data) ("周大福".data)
      ("足金".data) ("823.00".data) ("元/克".data) ("999".data) ("无".data)
      ("涨".data)).1,
   (C5_validation GoldType.jewelry tNow ("2025-09-17".data) ("周大福".data)
      ("足金".data) ("823.00".data) ("元/克".data) ("999".data) ("无".data)
      ("涨".data)).2 rec823 rfl⟩

/-! ## Claims C6 and C10: numeric price extraction -/

theorem takeWhile_all {p : Char → Bool} {l : List Char} :
    ∀ c ∈ l.takeWhile p, p c = true := by
  induction l with
  | nil => simp
  | cons a l ih =>
    by_cases h : p a
    · simp only [List.takeWhile_cons, h, if_true, List.mem_cons]
      rintro c (rfl | hc)
      · exact h
      · exact ih c hc
    · simp [List.takeWhile_cons, h]

theorem head_dropWhile_not {p : Char → Bool} {l : List Char} {c : Char}
    (h : (l.dropWhile p).head? = some c) : p c = false := by
  induction l with
  | nil => simp at h
  | cons a l ih =>
    by_cases ha : p a
    · rw [List.dropWhile_cons_of_pos ha] at h
      exact ih h
    · rw [List.dropWhile_cons_of_neg ha] at h
      simp only [List.head?_cons, Option.some.injEq] at h
      subst h
      simpa using ha

theorem searchNum_isSome_iff (s : List Char) :
    (searchNum s).isSome ↔ ∃ c ∈ s, isDigit c = true := by
  induction s with
  | nil => simp [searchNum]
  | cons c cs ih =>
    by_cases hc : isDigit c
    · rw [searchNum, if_pos hc]
      simp only [Option.isSome_some, true_iff]
      exact ⟨c, List.mem_cons_self c cs, hc⟩
    · rw [searchNum, if_neg hc, ih]
      constructor
      · rintro ⟨a, ha, hd⟩
        exact ⟨a, List.mem_cons_of_mem c ha, hd⟩
      · rintro ⟨a, ha, hd⟩
        rcases List.mem_cons.mp ha with rfl | ha2
        · exact absurd hd (by simpa using hc)
        · exact ⟨a, ha2, hd⟩

theorem grabNum_dot {l r2 : List Char} (h : l.dropWhile isDigit = '.' :: r2) :
    grabNum l = l.takeWhile isDigit ++ '.' :: r2.takeWhile isDigit ∧
    l = (l.takeWhile isDigit ++ '.' :: r2.takeWhile isDigit) ++
        r2.dropWhile isDigit := by
  have hsplit : l.takeWhile isDigit ++ '.' :: r2 = l :=
    h ▸ List.takeWhile_append_dropWhile _ _
  constructor
  · rw [grabNum]
    simp [h]
  · conv_lhs => rw [← hsplit]
    simp [List.takeWhile_append_dropWhile]

theorem grabNum_nodot {l : List Char}
    (h : (l.dropWhile isDigit).head? ≠ some '.') :
    grabNum l = l.takeWhile isDigit ∧
    l = l.takeWhile isDigit ++ l.dropWhile isDigit := by
  constructor
  · rw [grabNum]
    simp [h]
  · rw [List.takeWhile_append_dropWhile _ _]

/-- Specification-side description of the token found by the search
regex \d+\.?\d*: the text splits into a digit-free part, the token —
a non-empty digit run, optionally extended by a single dot and a second
digit run — and a remainder that cannot extend the token. -/
def FirstNumToken (s tok : List Char) : Prop :=
  ∃ pre ds rest, (∀ c ∈ pre, isDigit c = false) ∧ ds ≠ [] ∧
    (∀ c ∈ ds, isDigit c = true) ∧
    ((tok = ds ∧ s = pre ++ ds ++ rest ∧
        (∀ c, rest.head? = some c → isDigit c = false ∧ c ≠ '.')) ∨
     (∃ fs, tok = ds ++ '.' :: fs ∧ (∀ c ∈ fs, isDigit c = true) ∧
        s = pre ++ tok ++ rest ∧
        (∀ c, rest.head? = some c → isDigit c = false)))

theorem searchNum_spec {s tok : List Char} (h : searchNum s = some tok) :
    FirstNumToken s tok := by
  induction s with
  | nil => simp [searchNum] at h
  | cons c cs ih =>
    by_cases hc : isDigit c
    · rw [searchNum, if_pos hc] at h
      injection h with h
      subst h
      have hne : (c :: cs).takeWhile isDigit ≠ [] := by
        rw [List.takeWhile_cons_of_pos hc]
        simp
      by_cases hdot : ((c :: cs).dropWhile isDigit).head? = some '.'
      · obtain ⟨r2, hr2⟩ : ∃ r2, (c :: cs).dropWhile isDigit = '.' :: r2 := by
          cases hd : (c :: cs).dropWhile isDigit with
          | nil => rw [hd] at hdot; simp at hdot
          | cons x xs =>
            rw [hd] at hdot
            simp only [List.head?_cons, Option.some.injEq] at hdot
            exact ⟨xs, by rw [hdot]⟩
        obtain ⟨hg, hs⟩ := grabNum_dot hr2
        refine ⟨[], (c :: cs).takeWhile isDigit, r2.dropWhile isDigit, by simp,
          hne, takeWhile_all, Or.inr ?_⟩
        refine ⟨r2.takeWhile isDigit, hg, takeWhile_all, ?_, ?_⟩
        · rw [List.nil_append, hg]
          exact hs
        · intro a ha
          exact head_dropWhile_not ha
      · obtain ⟨hg, hs⟩ := grabNum_nodot hdot
        refine ⟨[], (c :: cs).takeWhile isDigit, (c :: cs).dropWhile isDigit,
          by simp, hne, takeWhile_all, Or.inl ?_⟩
        refine ⟨hg, by rw [List.nil_append]; exact hs, ?_⟩
        intro a ha
        refine ⟨head_dropWhile_not ha, ?_⟩
        intro hadot
        subst hadot
        exact hdot ha
    · rw [searchNum, if_neg hc] at h
      obtain ⟨pre, ds, rest, hpre, hne, hds, hcase⟩ := ih h
      refine ⟨c :: pre, ds, rest, ?_, hne, hds, ?_⟩
      · intro a ha
        rcases List.mem_cons.mp ha with rfl | ha
        · simpa using hc
        · exact hpre a ha
      · rcases hcase with ⟨h1, h2, h3⟩ | ⟨fs, h1, h2, h3, h4⟩
        · exact Or.inl ⟨h1, by simp [h2], h3⟩
        · exact Or.inr ⟨fs, h1, h2, by simp [h3], h4⟩

/-- Claim C6: for a validated row, price_value is the parse of the first
digit run (optionally containing a single decimal point) of the stripped
price text when one exists; when the search fails the record is still
produced, with price_value absent and every other field intact. -/
theorem C6_price_extraction (gt : GoldType) (now : String)
    (d b p pr u pu cf tr : List Char) (hval : ValidRow d b p pr u) :
    ∃ rec, buildRecord gt now [d, b, p, pr, u, pu, cf, tr] = some rec ∧
      rec.price_value = (searchNum (pyStrip pr)).map parseDecimal ∧
      (searchNum (pyStrip pr) = none → rec.price_value = none) ∧
      (∀ tok, searchNum (pyStrip pr) = some tok →
        rec.price_value = some (parseDecimal tok) ∧
        FirstNumToken (pyStrip pr) tok) ∧
      rec.date = String.mk (pyStrip d) ∧ rec.brand = String.mk (pyStrip b) ∧
      rec.product = String.mk (pyStrip p) ∧ rec.price = String.mk (pyStrip pr) ∧
      rec.unit = String.mk (pyStrip u) ∧ rec.purity = String.mk (pyStrip pu) ∧
      rec.craft_fee = String.mk (pyStrip cf) ∧ rec.trend = String.mk (pyStrip tr) := by
  refine ⟨mkRecord gt now d b p pr u pu cf tr, buildRecord_pos hval, rfl,
    ?_, ?_, rfl, rfl, rfl, rfl, rfl, rfl, rfl, rfl⟩
  · intro h
    simp [mkRecord, h]
  · intro tok h
    exact ⟨by simp [mkRecord, h], searchNum_spec h⟩

/-- Claim C6 witness: a row whose price text 待定 holds no digit still
normalizes to a record, with price_value absent and the other fields in
place. -/
theorem C6_witness :
    ∃ rec, buildRecord GoldType.jewelry tNow
        [ "2025-09-17".data, "周大福".data, "足金".data, "待定".data,
          "元/克".data, "999".data, "无".data, "平".data] = some rec ∧
      rec.price_value = (searchNum (pyStrip ("待定".data))).map parseDecimal ∧
      (searchNum (pyStrip ("待定".data)) = none → rec.price_value = none) ∧
      (∀ tok, searchNum (pyStrip ("待定".data)) = some tok →
        rec.price_value = some (parseDecimal tok) ∧
        FirstNumToken (pyStrip ("待定".data)) tok) ∧
      rec.date = String.mk (pyStrip ("2025-09-17".data)) ∧
      rec.brand = String.mk (pyStrip ("周大福".data)) ∧
      rec.product = String.mk (pyStrip ("足金".data)) ∧
      rec.price = String.mk (pyStrip ("待定".data)) ∧
      rec.unit = String.mk (pyStrip ("元/克".data)) ∧
      rec.purity = String.mk (pyStrip ("999".data)) ∧
      rec.craft_fee = String.mk (pyStrip ("无".data)) ∧
      rec.trend = String.mk (pyStrip ("平".data)) :=
  C6_price_extraction GoldType.jewelry tNow ("2025-09-17".data) ("周大福".data)
    ("足金".data) ("待定".data) ("元/克".data) ("999".data) ("无".data)
    ("平".data) (by decide)

/-- Claim C10: for every produced Record, price_value is present exactly
when the stripped price text holds at least one decimal digit, and any
present value is non-negative. -/
theorem C10_price_presence (gt : GoldType) (now : String)
    (d b p pr u pu cf tr : List Char) (rec : Record)
    (h : buildRecord gt now [d, b, p, pr, u, pu, cf, tr] = some rec) :
    (rec.price_value.isSome ↔ ∃ c ∈ pyStrip pr, isDigit c = true) ∧
    (∀ q, rec.price_value = some q → 0 ≤ q) := by
  obtain ⟨hval, hrec⟩ := buildRecord_inv h
  subst hrec
  have hpv : (mkRecord gt now d b p pr u pu cf tr).price_value
      = (searchNum (pyStrip pr)).map parseDecimal := rfl
  constructor
  · rw [hpv, ← searchNum_isSome_iff (pyStrip pr)]
    cases searchNum (pyStrip pr) <;> simp
  · intro q hq
    rw [hpv] at hq
    cases hsn : searchNum (pyStrip pr) with
    | none => rw [hsn] at hq; simp at hq
    | some tok =>
      rw [hsn] at hq
      simp at hq
      rw [← hq]
      exact parseDecimal_nonneg tok

/-- Claim C10 witness: the presence equivalence and non-negativity on
the spec's example row with price text 823.00. -/
theorem C10_witness :
    (rec823.price_value.isSome ↔ ∃ c ∈ pyStrip ("823.00".data), isDigit c = true) ∧
    (∀ q, rec823.price_value = some q → 0 ≤ q) :=
  C10_price_presence GoldType.jewelry tNow ("2025-09-17".data) ("周大福".data)
    ("足金".data) ("823.00".data) ("元/克".data) ("999".data) ("无".data)
    ("涨".data) rec823 rfl

/-! ## Claim C9: determinism up to the timestamp -/

/-- Erase the 解析时间 timestamp of a record. -/
def stripTime (r : Record) : Record :=
  { r with parsed_at := "" }

theorem buildRecord_map_stripTime (gt : GoldType) (t1 t2 : String)
    (m : List (List Char)) :
    (buildRecord gt t1 m).map stripTime = (buildRecord gt t2 m).map stripTime := by
  rcases m with - | ⟨d, - | ⟨b, - | ⟨p, - | ⟨pr, - | ⟨u, - | ⟨pu, - |
    ⟨cf, - | ⟨tr, - | ⟨x, xs⟩⟩⟩⟩⟩⟩⟩⟩⟩
  any_goals rfl
  by_cases hval : ValidRow d b p pr u
  · rw [buildRecord_pos hval, buildRecord_pos hval]
    rfl
  · rw [buildRecord_neg hval, buildRecord_neg hval]

/-- Claim C9: extraction plus normalization is deterministic up to the
timestamp: two runs on the same HTML and category give record sequences
of the same length agreeing on every field except parsed_at. -/
theorem C9_deterministic (html : List Char) (gt : GoldType) (t1 t2 : String) :
    (parse_complete_gold_data html gt t1).map stripTime
      = (parse_complete_gold_data html gt t2).map stripTime ∧
    (parse_complete_gold_data html gt t1).length
      = (parse_complete_gold_data html gt t2).length := by
  have hmap : (parse_complete_gold_data html gt t1).map stripTime
      = (parse_complete_gold_data html gt t2).map stripTime := by
    simp only [parse_complete_gold_data]
    rw [List.map_filterMap, List.map_filterMap]
    simp only [buildRecord_map_stripTime gt t1 t2]
  refine ⟨hmap, ?_⟩
  have := congrArg List.length hmap
  simpa using this

/-! ## Claim C4: deduplication keeps the first-seen row per key -/

/-- Specification-side deduplication: keep each candidate whose key has
not occurred earlier, in order of first occurrence. -/
def firstOccur : List (List (List Char)) → List (List (List Char))
  | [] => []
  | m :: ms =>
    m :: firstOccur (ms.filter (fun m2 => decide (rowKey m2 ≠ rowKey m)))
termination_by l => l.length
decreasing_by
  simp only [List.length_cons]
  have := List.length_filter_le (fun m2 => decide (rowKey m2 ≠ rowKey m)) ms
  omega

theorem dedupGo_eq_firstOccur :
    ∀ ms seen, (∀ m ∈ ms, (m : List (List Char)).length = 8) →
      dedupGo ms seen
        = firstOccur (ms.filter (fun m => decide (rowKey m ∉ seen))) := by
  intro ms
  induction ms with
  | nil => intro seen h8; simp [dedupGo, firstOccur]
  | cons m ms ih =>
    intro seen h8
    have hm8 : m.length = 8 := h8 m (List.mem_cons_self m ms)
    have h8t : ∀ m2 ∈ ms, (m2 : List (List Char)).length = 8 :=
      fun m2 hm2 => h8 m2 (List.mem_cons_of_mem m hm2)
    by_cases hseen : rowKey m ∈ seen
    · rw [dedupGo, if_pos (by omega), if_pos hseen]
      rw [List.filter_cons_of_neg (by simp [hseen])]
      exact ih seen h8t
    · have hfil : List.filter (fun m2 => decide (rowKey m2 ∉ rowKey m :: seen)) ms
          = List.filter (fun m2 => decide (rowKey m2 ≠ rowKey m))
              (List.filter (fun m2 => decide (rowKey m2 ∉ seen)) ms) := by
        rw [List.filter_filter]
        apply List.filter_congr
        intro m2 hm2
        simp [List.mem_cons, not_or]
      rw [dedupGo, if_pos (by omega), if_neg hseen]
      rw [List.filter_cons_of_pos (by simp [hseen])]
      rw [firstOccur]
      rw [ih (rowKey m :: seen) h8t, hfil]

theorem mem_findAllGo_length
    {m : List Char → Option (List (List Char) × List Char)}
    (hm : ∀ cs caps rest, m cs = some (caps, rest) → caps.length = 8) :
    ∀ fuel cs caps, caps ∈ findAllGo m fuel cs → caps.length = 8 := by
  intro fuel
  induction fuel with
  | zero => intro cs caps h; simp [findAllGo] at h
  | succ n ih =>
    intro cs caps h
    cases hmc : m cs with
    | some pr =>
      obtain ⟨caps2, rest⟩ := pr
      simp only [findAllGo, hmc, List.mem_cons] at h
      rcases h with rfl | h
      · exact hm cs caps rest hmc
      · exact ih rest caps h
    | none =>
      cases cs with
      | nil => simp [findAllGo, hmc] at h
      | cons c t =>
        simp only [findAllGo, hmc] at h
        exact ih t caps h

theorem mem_findAll_row1_length {html : List Char} {caps : List (List Char)}
    (h : caps ∈ findAll matchRow1At html) : caps.length = 8 :=
  mem_findAllGo_length
    (fun cs caps rest hh =>
      (matchRowAt_length (fun a b c hc => by have := matchCell1_length hc; omega)
        cs caps rest hh).2) _ html caps h

theorem mem_findAll_row2_length {html : List Char} {caps : List (List Char)}
    (h : caps ∈ findAll matchRow2At html) : caps.length = 8 :=
  mem_findAllGo_length
    (fun cs caps rest hh =>
      (matchRowAt_length (fun a b c hc => by have := matchCell2_length hc; omega)
        cs caps rest hh).2) _ html caps h

/-- Two bare 8-cell rows sharing (date, brand, product, price) and
differing only in purity and trend. -/
def dupHtml : List Char :=
  String.data ("<td>d</td><td>b</td><td>p</td><td>pr</td><td>u</td><td>999</td><td>f</td><td>up</td><td>d</td><td>b</td><td>p</td><td>pr</td><td>u</td><td>990</td><td>f</td><td>dn</td>")

/-- The single record the duplicate-key document must produce: the
first-seen row, purity 999. -/
def dupRecord : Record :=
  { date := "d", brand := "b", product := "p", price := "pr",
    price_value := none, unit := "u", purity := "999", craft_fee := "f",
    trend := "up", gold_type_name := "首饰黄金", gold_type_code := "jewelry",
    data_source := "新浪财经", parsed_at := tNow }

set_option maxRecDepth 100000 in
/-- Claim C4: the pooled candidate rows of the two patterns are
deduplicated by the key of their first four fields, keeping only the
first-seen candidate per key in first-occurrence order; in particular
two raw rows sharing that key and differing only in purity produce the
single, first-seen record. -/
theorem C4_dedup_first_seen :
    (∀ html : List Char,
      dedupMatches (findAll matchRow1At html ++ findAll matchRow2At html)
        = firstOccur (findAll matchRow1At html ++ findAll matchRow2At html)) ∧
    parse_complete_gold_data dupHtml GoldType.jewelry tNow = [dupRecord] := by
  constructor
  · intro html
    rw [dedupMatches, dedupGo_eq_firstOccur]
    · congr 1
      apply List.filter_eq_self.mpr
      intro m hm
      simp
    · intro m hm
      rcases List.mem_append.mp hm with h | h
      · exact mem_findAll_row1_length h
      · exact mem_findAll_row2_length h
  · decide

/-! ## Counter and extremum lemmas for the aggregation claims -/

theorem lookup_bump_self (al : List (String × Nat)) (x : String) :
    (bump al x).lookup x = some (((al.lookup x).getD 0) + 1) := by
  induction al with
  | nil => simp [bump, List.lookup]
  | cons a t ih =>
    obtain ⟨k0, n0⟩ := a
    by_cases hk : k0 = x
    · subst hk
      simp [bump, List.lookup]
    · have hbeq : (x == k0) = false :=
        beq_eq_false_iff_ne.mpr (fun he => hk he.symm)
      rw [bump, if_neg hk]
      simp only [List.lookup, hbeq]
      exact ih

theorem lookup_bump_other (al : List (String × Nat)) (x k : String)
    (hk : k ≠ x) : (bump al x).lookup k = al.lookup k := by
  have hbeq : (k == x) = false := beq_eq_false_iff_ne.mpr hk
  induction al with
  | nil => simp [bump, List.lookup, hbeq]
  | cons a t ih =>
    obtain ⟨k0, n0⟩ := a
    by_cases hk0 : k0 = x
    · subst hk0
      rw [bump, if_pos rfl]
      simp only [List.lookup, hbeq]
    · rw [bump, if_neg hk0]
      by_cases hkk : k = k0
      · subst hkk
        simp [List.lookup]
      · have hbeq0 : (k == k0) = false := beq_eq_false_iff_ne.mpr hkk
        simp only [List.lookup, hbeq0]
        exact ih

theorem keys_bump (al : List (String × Nat)) (x : String) :
    (bump al x).map Prod.fst
      = if x ∈ al.map Prod.fst then al.map Prod.fst
        else al.map Prod.fst ++ [x] := by
  induction al with
  | nil => simp [bump]
  | cons a t ih =>
    obtain ⟨k0, n0⟩ := a
    by_cases hk : k0 = x
    · subst hk
      simp [bump]
    · rw [bump, if_neg hk]
      by_cases hx : x ∈ t.map Prod.fst
      · simp only [List.map_cons, List.mem_cons, hx, or_true, if_true]
        rw [ih, if_pos hx]
      · have hno : ¬ (x = k0 ∨ x ∈ t.map Prod.fst) := by
          rintro (rfl | h)
          · exact hk rfl
          · exact hx h
        simp only [List.map_cons, List.mem_cons, hno, if_false]
        rw [ih, if_neg hx]
        simp

theorem counter_concat (l : List String) (x : String) :
    counter (l ++ [x]) = bump (counter l) x := by
  rw [counter, counter, List.foldl_append]
  rfl

theorem counter_lookup (l : List String) (k : String) :
    (counter l).lookup k = if k ∈ l then some (l.count k) else none := by
  induction l using List.reverseRecOn with
  | nil => simp [counter, List.lookup]
  | append_singleton l x ih =>
    rw [counter_concat]
    by_cases hk : k = x
    · subst hk
      rw [lookup_bump_self, ih]
      by_cases hmem : k ∈ l
      · simp [hmem, List.count_append]
      · simp [hmem, List.count_append, List.count_eq_zero.mpr hmem]
    · rw [lookup_bump_other _ _ _ hk, ih]
      by_cases hmem : k ∈ l
      · simp [hmem, List.count_append, hk]
      · have hno : ¬ k ∈ l ++ [x] := by simp [hmem, hk]
        simp [hmem, hno]

theorem counter_keys_nodup (l : List String) :
    ((counter l).map Prod.fst).Nodup := by
  induction l using List.reverseRecOn with
  | nil => simp [counter]
  | append_singleton l x ih =>
    rw [counter_concat, keys_bump]
    by_cases hx : x ∈ (counter l).map Prod.fst
    · rw [if_pos hx]
      exact ih
    · rw [if_neg hx]
      refine List.Nodup.append ih (List.nodup_singleton x) ?_
      intro a ha hb
      rw [List.mem_singleton] at hb
      subst hb
      exact hx ha

theorem mem_iff_lookup {al : List (String × Nat)}
    (hnd : (al.map Prod.fst).Nodup) (k : String) (c : Nat) :
    (k, c) ∈ al ↔ al.lookup k = some c := by
  induction al with
  | nil => simp [List.lookup]
  | cons a t ih =>
    obtain ⟨k0, n0⟩ := a
    simp only [List.map_cons, List.nodup_cons] at hnd
    obtain ⟨hk0, hndt⟩ := hnd
    by_cases hk : k = k0
    · subst hk
      simp only [List.lookup, beq_self_eq_true, List.mem_cons, Prod.mk.injEq,
        true_and, Option.some.injEq]
      constructor
      · rintro (rfl | hmem)
        · rfl
        · exact absurd (List.mem_map_of_mem Prod.fst hmem) (by simpa using hk0)
      · intro h
        exact Or.inl h.symm
    · have hbeq : (k == k0) = false := beq_eq_false_iff_ne.mpr hk
      simp only [List.lookup, hbeq, List.mem_cons, Prod.mk.injEq]
      rw [← ih hndt]
      constructor
      · rintro (⟨rfl, -⟩ | hmem)
        · exact absurd rfl hk
        · exact hmem
      · intro h
        exact Or.inr h

theorem counter_mem_iff (l : List String) (k : String) (c : Nat) :
    (k, c) ∈ counter l ↔ (k ∈ l ∧ c = l.count k) := by
  rw [mem_iff_lookup (counter_keys_nodup l), counter_lookup]
  by_cases hmem : k ∈ l
  · simp [hmem, eq_comm]
  · simp [hmem]

theorem foldl_max_mem : ∀ (l : List ℚ) (a : ℚ), l.foldl max a ∈ a :: l := by
  intro l
  induction l with
  | nil => intro a; simp
  | cons b l ih =>
    intro a
    rw [List.foldl_cons]
    have hm := ih (max a b)
    rcases List.mem_cons.mp hm with h | h
    · rw [h]
      rcases max_choice a b with hmx | hmx <;> rw [hmx]
      · exact List.mem_cons_self _ _
      · exact List.mem_cons_of_mem _ (List.mem_cons_self _ _)
    · exact List.mem_cons_of_mem _ (List.mem_cons_of_mem _ h)

theorem le_foldl_max : ∀ (l : List ℚ) (a : ℚ), ∀ x ∈ a :: l, x ≤ l.foldl max a := by
  intro l
  induction l with
  | nil =>
    intro a x hx
    simp at hx
    simp [hx]
  | cons b l ih =>
    intro a x hx
    rw [List.foldl_cons]
    rcases List.mem_cons.mp hx with rfl | hx2
    · exact le_trans (le_max_left x b) (ih (max x b) _ (List.mem_cons_self _ _))
    · rcases List.mem_cons.mp hx2 with rfl | hx3
      · exact le_trans (le_max_right a x) (ih (max a x) _ (List.mem_cons_self _ _))
      · exact ih (max a b) x (List.mem_cons_of_mem _ hx3)

theorem foldl_min_mem : ∀ (l : List ℚ) (a : ℚ), l.foldl min a ∈ a :: l := by
  intro l
  induction l with
  | nil => intro a; simp
  | cons b l ih =>
    intro a
    rw [List.foldl_cons]
    have hm := ih (min a b)
    rcases List.mem_cons.mp hm with h | h
    · rw [h]
      rcases min_choice a b with hmx | hmx <;> rw [hmx]
      · exact List.mem_cons_self _ _
      · exact List.mem_cons_of_mem _ (List.mem_cons_self _ _)
    · exact List.mem_cons_of_mem _ (List.mem_cons_of_mem _ h)

theorem foldl_min_le : ∀ (l : List ℚ) (a : ℚ), ∀ x ∈ a :: l, l.foldl min a ≤ x := by
  intro l
  induction l with
  | nil =>
    intro a x hx
    simp at hx
    simp [hx]
  | cons b l ih =>
    intro a x hx
    rw [List.foldl_cons]
    rcases List.mem_cons.mp hx with rfl | hx2
    · exact le_trans (ih (min x b) _ (List.mem_cons_self _ _)) (min_le_left x b)
    · rcases List.mem_cons.mp hx2 with rfl | hx3
      · exact le_trans (ih (min a x) _ (List.mem_cons_self _ _)) (min_le_right a x)
      · exact ih (min a b) x (List.mem_cons_of_mem _ hx3)

theorem pyMaxQ_spec {l : List ℚ} (h : l ≠ []) :
    pyMaxQ l ∈ l ∧ ∀ x ∈ l, x ≤ pyMaxQ l := by
  cases l with
  | nil => exact absurd rfl h
  | cons p ps =>
    rw [pyMaxQ]
    exact ⟨foldl_max_mem ps p, fun x hx => le_foldl_max ps p x hx⟩

theorem pyMinQ_spec {l : List ℚ} (h : l ≠ []) :
    pyMinQ l ∈ l ∧ ∀ x ∈ l, pyMinQ l ≤ x := by
  cases l with
  | nil => exact absurd rfl h
  | cons p ps =>
    rw [pyMinQ]
    exact ⟨foldl_min_mem ps p, fun x hx => foldl_min_le ps p x hx⟩

/-! ## Claims C7 and C8: price statistics and trend distribution -/

/-- Inert default report, used only as a getD default in witnesses. -/
def defaultStats : PriceStats :=
  { max_price := 0, min_price := 0, avg_price := 0, median_price := 0,
    price_count := 0 }

def defaultAnalysis : Analysis :=
  { total_records := 0, date_range := "", brand_count := 0, product_count := 0,
    valid_price_count := 0, brand_stats := [], brand_top := [],
    product_stats := [], product_top := [], price_stats := none,
    trend_stats := [], trend_ratios := [], date_stats := [], date_count := 0 }

/-- Claim C7: when the collection holds at least one present price, the
price statistics are computed over exactly the present price values:
maximum, minimum, arithmetic mean, the element at index ⌊n/2⌋ of the
ascending-sorted price list, and the count. -/
theorem C7_price_statistics (gold_data : List Record) (a : Analysis)
    (h : analyze_gold_data gold_data = some a) :
    (a.price_stats = none ↔ gold_data.filterMap Record.price_value = []) ∧
    (∀ ps, a.price_stats = some ps →
      ps.price_count = (gold_data.filterMap Record.price_value).length ∧
      ps.max_price ∈ gold_data.filterMap Record.price_value ∧
      (∀ x ∈ gold_data.filterMap Record.price_value, x ≤ ps.max_price) ∧
      ps.min_price ∈ gold_data.filterMap Record.price_value ∧
      (∀ x ∈ gold_data.filterMap Record.price_value, ps.min_price ≤ x) ∧
      ps.avg_price = (gold_data.filterMap Record.price_value).sum /
        ((gold_data.filterMap Record.price_value).length : ℚ) ∧
      ∃ sorted, (gold_data.filterMap Record.price_value).Perm sorted ∧
        sorted.Sorted (· ≤ ·) ∧
        ps.median_price = sorted.getD (sorted.length / 2) 0) := by
  obtain ⟨hne, ha⟩ := analyze_inv h
  subst ha
  have hps : (analyze_body gold_data).price_stats
      = price_analysis (gold_data.filterMap Record.price_value) := rfl
  rw [hps]
  constructor
  · rw [price_analysis]
    by_cases hp : gold_data.filterMap Record.price_value = [] <;> simp [hp]
  · intro ps hpsome
    rw [price_analysis] at hpsome
    by_cases hp : gold_data.filterMap Record.price_value = []
    · rw [if_pos hp] at hpsome
      exact absurd hpsome (by simp)
    · rw [if_neg hp] at hpsome
      injection hpsome with hpsome
      subst hpsome
      refine ⟨rfl, (pyMaxQ_spec hp).1, (pyMaxQ_spec hp).2,
        (pyMinQ_spec hp).1, (pyMinQ_spec hp).2, rfl, ?_⟩
      refine ⟨List.insertionSort (· ≤ ·) (gold_data.filterMap Record.price_value),
        (List.perm_insertionSort _ _).symm, List.sorted_insertionSort _ _, ?_⟩
      have hlen := (List.perm_insertionSort (fun x1 x2 => x1 ≤ x2)
        (gold_data.filterMap Record.price_value)).length_eq
      rw [hlen]

/-- Four example records with trends 涨, 涨, 跌, 平 and three present
prices 10, 20, 21 (one absent). -/
def exRecs : List Record :=
  [ { date := "2025-09-16", brand := "周大福", product := "足金", price := "10",
      price_value := some 10, unit := "元/克", purity := "999", craft_fee := "无",
      trend := "涨", gold_type_name := "首饰黄金", gold_type_code := "jewelry",
      data_source := "新浪财经", parsed_at := "" },
    { date := "2025-09-17", brand := "周生生", product := "足金", price := "20",
      price_value := some 20, unit := "元/克", purity := "999", craft_fee := "无",
      trend := "涨", gold_type_name := "首饰黄金", gold_type_code := "jewelry",
      data_source := "新浪财经", parsed_at := "" },
    { date := "2025-09-17", brand := "老凤祥", product := "金条", price := "待定",
      price_value := none, unit := "元/克", purity := "999", craft_fee := "无",
      trend := "跌", gold_type_name := "首饰黄金", gold_type_code := "jewelry",
      data_source := "新浪财经", parsed_at := "" },
    { date := "2025-09-18", brand := "周大福", product := "金条", price := "21",
      price_value := some 21, unit := "元/克", purity := "999", craft_fee := "无",
      trend := "平", gold_type_name := "首饰黄金", gold_type_code := "jewelry",
      data_source := "新浪财经", parsed_at := "" } ]

def exAnalysis : Analysis := (analyze_gold_data exRecs).getD defaultAnalysis

def exStats : PriceStats := exAnalysis.price_stats.getD defaultStats

/-- Claim C7 witness: the statistics contract evaluated on the example
records with present prices 10, 20, 21. -/
theorem C7_witness :
    (exAnalysis.price_stats = none ↔ exRecs.filterMap Record.price_value = []) ∧
    (exStats.price_count = (exRecs.filterMap Record.price_value).length ∧
      exStats.max_price ∈ exRecs.filterMap Record.price_value ∧
      (∀ x ∈ exRecs.filterMap Record.price_value, x ≤ exStats.max_price) ∧
      exStats.min_price ∈ exRecs.filterMap Record.price_value ∧
      (∀ x ∈ exRecs.filterMap Record.price_value, exStats.min_price ≤ x) ∧
      exStats.avg_price = (exRecs.filterMap Record.price_value).sum /
        ((exRecs.filterMap Record.price_value).length : ℚ) ∧
      ∃ sorted, (exRecs.filterMap Record.price_value).Perm sorted ∧
        sorted.Sorted (· ≤ ·) ∧
        exStats.median_price = sorted.getD (sorted.length / 2) 0) :=
  ⟨(C7_price_statistics exRecs exAnalysis rfl).1,
   (C7_price_statistics exRecs exAnalysis rfl).2 exStats rfl⟩

theorem roundHalfEven_natCast (m : Nat) :
    roundHalfEven ((m : ℚ)) = (m : ℤ) := by
  unfold roundHalfEven
  rw [Int.floor_natCast]
  rw [if_neg (by push_cast; norm_num)]
  exact round_natCast m

theorem fmt1_natCast (m : Nat) :
    fmt1 ((m : ℚ)) = toString m ++ "." ++ "0" := by
  unfold fmt1
  dsimp only
  have h10 : (10 : ℚ) * ((m : Nat) : ℚ) = (((10 * m : Nat)) : ℚ) := by
    push_cast
    ring
  rw [h10, roundHalfEven_natCast]
  have htn : ((10 * m : Nat) : ℤ).toNat = 10 * m := by omega
  rw [htn]
  have hdiv : 10 * m / 10 = m := by omega
  have hmod : 10 * m % 10 = 0 := by omega
  rw [hdiv, hmod]
  rfl

theorem fmt1_half : fmt1 (((2 : Nat) : ℚ) / ((4 : Nat) : ℚ) * 100) = "50.0" := by
  have hq : ((2 : Nat) : ℚ) / ((4 : Nat) : ℚ) * 100 = ((50 : Nat) : ℚ) := by
    push_cast
    norm_num
  rw [hq, fmt1_natCast]
  decide

theorem fmt1_quarter : fmt1 (((1 : Nat) : ℚ) / ((4 : Nat) : ℚ) * 100) = "25.0" := by
  have hq : ((1 : Nat) : ℚ) / ((4 : Nat) : ℚ) * 100 = ((25 : Nat) : ℚ) := by
    push_cast
    norm_num
  rw [hq, fmt1_natCast]
  decide

/-- Claim C8: the trend distribution counts each distinct trend value,
each percentage is count ÷ total record count × 100 formatted to one
decimal with a percent suffix, and the four-record example with trends
涨, 涨, 跌, 平 renders as 50.0%, 25.0%, 25.0%. -/
theorem C8_trend_distribution (gold_data : List Record) (a : Analysis)
    (h : analyze_gold_data gold_data = some a) :
    (∀ t c, (t, c) ∈ a.trend_stats ↔
      (t ∈ gold_data.map Record.trend ∧
        c = (gold_data.map Record.trend).count t)) ∧
    a.trend_ratios = a.trend_stats.map
      (fun kv => (kv.1, fmt1 ((kv.2 : ℚ) / (gold_data.length : ℚ) * 100) ++ "%")) ∧
    (analyze_gold_data exRecs).map Analysis.trend_ratios
      = some [("涨", "50.0%"), ("跌", "25.0%"), ("平", "25.0%")] := by
  obtain ⟨hne, ha⟩ := analyze_inv h
  subst ha
  have hts : (analyze_body gold_data).trend_stats
      = counter (gold_data.map Record.trend) := rfl
  refine ⟨?_, ?_, ?_⟩
  · intro t c
    rw [hts]
    exact counter_mem_iff (gold_data.map Record.trend) t c
  · rfl
  · have h1 : (analyze_gold_data exRecs).map Analysis.trend_ratios
        = some ((analyze_body exRecs).trend_ratios) := rfl
    rw [h1]
    have h2 : (analyze_body exRecs).trend_ratios
        = [("涨", fmt1 (((2 : Nat) : ℚ) / ((4 : Nat) : ℚ) * 100) ++ "%"),
           ("跌", fmt1 (((1 : Nat) : ℚ) / ((4 : Nat) : ℚ) * 100) ++ "%"),
           ("平", fmt1 (((1 : Nat) : ℚ) / ((4 : Nat) : ℚ) * 100) ++ "%")] := rfl
    rw [h2, fmt1_half, fmt1_quarter]
    rfl

/-- Claim C8 witness: the distribution contract evaluated on the
four-record example. -/
theorem C8_witness :
    (∀ t c, (t, c) ∈ exAnalysis.trend_stats ↔
      (t ∈ exRecs.map Record.trend ∧
        c = (exRecs.map Record.trend).count t)) ∧
    exAnalysis.trend_ratios = exAnalysis.trend_stats.map
      (fun kv => (kv.1, fmt1 ((kv.2 : ℚ) / (exRecs.length : ℚ) * 100) ++ "%")) ∧
    (analyze_gold_data exRecs).map Analysis.trend_ratios
      = some [("涨", "50.0%"), ("跌", "25.0%"), ("平", "25.0%")] :=
  C8_trend_distribution exRecs exAnalysis rfl

/-! ## Claim C3: well-formed documents, row counts and output order -/

/-- The two supported markup shapes for a table row. -/
inductive CellShape
  | bare
  | wrapped
deriving DecidableEq

/-- An abstract table row: a markup shape and its 8 cell texts. -/
structure Row where
  shape : CellShape
  fields : List (List Char)
deriving DecidableEq

def isBare (r : Row) : Bool :=
  match r.shape with
  | .bare => true
  | .wrapped => false

/-- Render one cell in the bare shape. -/
def renderCell1 (f : List Char) : List Char :=
  ['<', 't', 'd', '>'] ++ f ++ ['<', '/', 't', 'd', '>']

/-- Render one cell in the wrapped shape. -/
def renderCell2 (f : List Char) : List Char :=
  ['<', 't', 'd', '>', '<', 'd', 'i', 'v', '>'] ++ f ++
    ['<', '/', 'd', 'i', 'v', '>', '<', '/', 't', 'd', '>']

/-- Render a row: its cells inside a tr element. -/
def renderRow (r : Row) : List Char :=
  ['<', 't', 'r', '>'] ++
    (match r.shape with
     | .bare => (r.fields.map renderCell1).flatten
     | .wrapped => (r.fields.map renderCell2).flatten) ++
    ['<', '/', 't', 'r', '>']

/-- Render a document: the rows in order. -/
def renderDoc (rows : List Row) : List Char := (rows.map renderRow).flatten

/-- A well-formed row for extraction: 8 cells, none containing a
tag-opening character. -/
def WFRow (r : Row) : Prop :=
  r.fields.length = 8 ∧ ∀ f ∈ r.fields, '<' ∉ f

instance (r : Row) : Decidable (WFRow r) := by
  unfold WFRow
  infer_instance

/-- The normalization-side validity of an 8-field raw row. -/
def RowValid (m : List (List Char)) : Prop :=
  ValidRow (m.getD 0 []) (m.getD 1 []) (m.getD 2 []) (m.getD 3 []) (m.getD 4 [])

instance (m : List (List Char)) : Decidable (RowValid m) := by
  unfold RowValid
  infer_instance

/-- The record normalization builds from a raw 8-field row. -/
def rowRecord (gt : GoldType) (now : String) (m : List (List Char)) : Record :=
  mkRecord gt now (m.getD 0 []) (m.getD 1 []) (m.getD 2 []) (m.getD 3 [])
    (m.getD 4 []) (m.getD 5 []) (m.getD 6 []) (m.getD 7 [])

theorem takeWhile_append_all {p : Char → Bool} :
    ∀ {f l : List Char}, (∀ c ∈ f, p c = true) →
      (f ++ l).takeWhile p = f ++ l.takeWhile p := by
  intro f
  induction f with
  | nil => intro l h; simp
  | cons a f ih =>
    intro l h
    have ha : p a = true := h a (List.mem_cons_self a f)
    rw [List.cons_append, List.takeWhile_cons_of_pos ha, List.cons_append,
      ih (fun c hc => h c (List.mem_cons_of_mem a hc))]

theorem dropWhile_append_all {p : Char → Bool} :
    ∀ {f l : List Char}, (∀ c ∈ f, p c = true) →
      (f ++ l).dropWhile p = l.dropWhile p := by
  intro f
  induction f with
  | nil => intro l h; simp
  | cons a f ih =>
    intro l h
    have ha : p a = true := h a (List.mem_cons_self a f)
    rw [List.cons_append, List.dropWhile_cons_of_pos ha,
      ih (fun c hc => h c (List.mem_cons_of_mem a hc))]

theorem renderCell1_eq (f rest : List Char) :
    renderCell1 f ++ rest
      = '<' :: 't' :: 'd' :: '>' ::
          (f ++ ('<' :: '/' :: 't' :: 'd' :: '>' :: rest)) := by
  simp [renderCell1]

theorem renderCell2_eq (f rest : List Char) :
    renderCell2 f ++ rest
      = '<' :: 't' :: 'd' :: '>' :: '<' :: 'd' :: 'i' :: 'v' :: '>' ::
          (f ++ ('<' :: '/' :: 'd' :: 'i' :: 'v' :: '>' ::
            '<' :: '/' :: 't' :: 'd' :: '>' :: rest)) := by
  simp [renderCell2]

theorem notLt_of_no_lt {f : List Char} (hf : '<' ∉ f) :
    ∀ c ∈ f, notLt c = true := by
  intro c hc
  have : c ≠ '<' := fun he => hf (he ▸ hc)
  simpa [notLt] using this

theorem matchCell1_render {f rest : List Char} (hf : '<' ∉ f) :
    matchCell1 ('<' :: 't' :: 'd' :: '>' ::
        (f ++ ('<' :: '/' :: 't' :: 'd' :: '>' :: rest)))
      = some (f, rest) := by
  have ht : (f ++ ('<' :: '/' :: 't' :: 'd' :: '>' :: rest)).takeWhile notLt
      = f := by
    rw [takeWhile_append_all (notLt_of_no_lt hf)]
    simp [List.takeWhile_cons, notLt]
  have hd : (f ++ ('<' :: '/' :: 't' :: 'd' :: '>' :: rest)).dropWhile notLt
      = '<' :: '/' :: 't' :: 'd' :: '>' :: rest := by
    rw [dropWhile_append_all (notLt_of_no_lt hf)]
    simp [List.dropWhile_cons, notLt]
  simp [matchCell1, lit, List.dropWhile_cons, notGt, ht, hd]

theorem matchCell2_render {f rest : List Char} (hf : '<' ∉ f) :
    matchCell2 ('<' :: 't' :: 'd' :: '>' :: '<' :: 'd' :: 'i' :: 'v' :: '>' ::
        (f ++ ('<' :: '/' :: 'd' :: 'i' :: 'v' :: '>' ::
          '<' :: '/' :: 't' :: 'd' :: '>' :: rest)))
      = some (f, rest) := by
  have ht : (f ++ ('<' :: '/' :: 'd' :: 'i' :: 'v' :: '>' ::
      '<' :: '/' :: 't' :: 'd' :: '>' :: rest)).takeWhile notLt = f := by
    rw [takeWhile_append_all (notLt_of_no_lt hf)]
    simp [List.takeWhile_cons, notLt]
  have hd : (f ++ ('<' :: '/' :: 'd' :: 'i' :: 'v' :: '>' ::
      '<' :: '/' :: 't' :: 'd' :: '>' :: rest)).dropWhile notLt
      = '<' :: '/' :: 'd' :: 'i' :: 'v' :: '>' ::
          '<' :: '/' :: 't' :: 'd' :: '>' :: rest := by
    rw [dropWhile_append_all (notLt_of_no_lt hf)]
    simp [List.dropWhile_cons, notLt]
  simp [matchCell2, lit, List.dropWhile_cons, notGt, ht, hd]

theorem matchCell1_head {c : Char} {cs : List Char} (hc : c ≠ '<') :
    matchCell1 (c :: cs) = none := by
  simp [matchCell1, lit, hc]

theorem matchCell2_head {c : Char} {cs : List Char} (hc : c ≠ '<') :
    matchCell2 (c :: cs) = none := by
  simp [matchCell2, lit, hc]

theorem matchCell1_lt {c : Char} {cs : List Char} (hc : c ≠ 't') :
    matchCell1 ('<' :: c :: cs) = none := by
  simp [matchCell1, lit, hc]

theorem matchCell2_lt {c : Char} {cs : List Char} (hc : c ≠ 't') :
    matchCell2 ('<' :: c :: cs) = none := by
  simp [matchCell2, lit, hc]

theorem matchCell1_lt_t {c : Char} {cs : List Char} (hc : c ≠ 'd') :
    matchCell1 ('<' :: 't' :: c :: cs) = none := by
  simp [matchCell1, lit, hc]

theorem matchCell2_lt_t {c : Char} {cs : List Char} (hc : c ≠ 'd') :
    matchCell2 ('<' :: 't' :: c :: cs) = none := by
  simp [matchCell2, lit, hc]

theorem matchCell1_td_div (cs : List Char) :
    matchCell1 ('<' :: 't' :: 'd' :: '>' :: '<' :: 'd' :: cs) = none := by
  simp [matchCell1, lit, List.dropWhile_cons, List.takeWhile_cons, notGt, notLt]

theorem matchCell2_bare {f rest : List Char} (hf : '<' ∉ f) :
    matchCell2 ('<' :: 't' :: 'd' :: '>' ::
        (f ++ ('<' :: '/' :: rest))) = none := by
  cases f with
  | nil => simp [matchCell2, lit, List.dropWhile_cons, notGt]
  | cons c f =>
    have hc : c ≠ '<' := fun he => hf (he ▸ List.mem_cons_self c f)
    simp [matchCell2, lit, List.dropWhile_cons, notGt, hc]

theorem matchRow1At_fail {cs : List Char} (h : matchCell1 cs = none) :
    matchRow1At cs = none := by
  simp [matchRow1At, matchRowAt, h]

theorem matchRow2At_fail {cs : List Char} (h : matchCell2 cs = none) :
    matchRow2At cs = none := by
  simp [matchRow2At, matchRowAt, h]

theorem matchMore_succ
    {cell : List Char → Option (List Char × List Char)}
    {n : Nat} {cs cs1 cs2 cap : List Char} {caps : List (List Char)}
    (h1 : cell (cs.dropWhile isSpace) = some (cap, cs1))
    (h2 : matchMore cell n cs1 = some (caps, cs2)) :
    matchMore cell (n + 1) cs = some (cap :: caps, cs2) := by
  simp [matchMore, h1, h2]

theorem matchRowAt_succ
    {cell : List Char → Option (List Char × List Char)}
    {cs cs1 cs2 cap : List Char} {caps : List (List Char)}
    (h1 : cell cs = some (cap, cs1))
    (h2 : matchMore cell 7 cs1 = some (caps, cs2)) :
    matchRowAt cell cs = some (cap :: caps, cs2) := by
  simp [matchRowAt, h1, h2]

theorem matchMore_cells1 :
    ∀ (fs : List (List Char)) (rest : List Char), (∀ f ∈ fs, '<' ∉ f) →
      matchMore matchCell1 fs.length ((fs.map renderCell1).flatten ++ rest)
        = some (fs, rest) := by
  intro fs
  induction fs with
  | nil => intro rest h; simp [matchMore]
  | cons f fs ih =>
    intro rest h
    have hf : '<' ∉ f := h f (List.mem_cons_self f fs)
    have hfs : ∀ g ∈ fs, '<' ∉ g := fun g hg => h g (List.mem_cons_of_mem f hg)
    have h1 : matchCell1
        ((renderCell1 f ++ ((fs.map renderCell1).flatten ++ rest)).dropWhile isSpace)
        = some (f, (fs.map renderCell1).flatten ++ rest) := by
      rw [renderCell1_eq, List.dropWhile_cons_of_neg (by decide)]
      exact matchCell1_render hf
    have h2 := ih rest hfs
    simp only [List.map_cons, List.flatten_cons, List.length_cons,
      List.append_assoc]
    exact matchMore_succ h1 h2

theorem matchMore_cells2 :
    ∀ (fs : List (List Char)) (rest : List Char), (∀ f ∈ fs, '<' ∉ f) →
      matchMore matchCell2 fs.length ((fs.map renderCell2).flatten ++ rest)
        = some (fs, rest) := by
  intro fs
  induction fs with
  | nil => intro rest h; simp [matchMore]
  | cons f fs ih =>
    intro rest h
    have hf : '<' ∉ f := h f (List.mem_cons_self f fs)
    have hfs : ∀ g ∈ fs, '<' ∉ g := fun g hg => h g (List.mem_cons_of_mem f hg)
    have h1 : matchCell2
        ((renderCell2 f ++ ((fs.map renderCell2).flatten ++ rest)).dropWhile isSpace)
        = some (f, (fs.map renderCell2).flatten ++ rest) := by
      rw [renderCell2_eq, List.dropWhile_cons_of_neg (by decide)]
      exact matchCell2_render hf
    have h2 := ih rest hfs
    simp only [List.map_cons, List.flatten_cons, List.length_cons,
      List.append_assoc]
    exact matchMore_succ h1 h2

theorem matchRow1_render {fs : List (List Char)} {rest : List Char}
    (hlen : fs.length = 8) (hf : ∀ f ∈ fs, '<' ∉ f) :
    matchRow1At ((fs.map renderCell1).flatten ++ rest) = some (fs, rest) := by
  cases fs with
  | nil => simp at hlen
  | cons f fs =>
    have h7 : fs.length = 7 := by simpa using hlen
    have h1 : matchCell1
        (renderCell1 f ++ ((fs.map renderCell1).flatten ++ rest))
        = some (f, (fs.map renderCell1).flatten ++ rest) := by
      rw [renderCell1_eq]
      exact matchCell1_render (hf f (List.mem_cons_self f fs))
    have h2 : matchMore matchCell1 7 ((fs.map renderCell1).flatten ++ rest)
        = some (fs, rest) := by
      rw [← h7]
      exact matchMore_cells1 fs rest (fun g hg => hf g (List.mem_cons_of_mem f hg))
    show matchRowAt matchCell1 _ = _
    simp only [List.map_cons, List.flatten_cons, List.append_assoc]
    exact matchRowAt_succ h1 h2

theorem matchRow2_render {fs : List (List Char)} {rest : List Char}
    (hlen : fs.length = 8) (hf : ∀ f ∈ fs, '<' ∉ f) :
    matchRow2At ((fs.map renderCell2).flatten ++ rest) = some (fs, rest) := by
  cases fs with
  | nil => simp at hlen
  | cons f fs =>
    have h7 : fs.length = 7 := by simpa using hlen
    have h1 : matchCell2
        (renderCell2 f ++ ((fs.map renderCell2).flatten ++ rest))
        = some (f, (fs.map renderCell2).flatten ++ rest) := by
      rw [renderCell2_eq]
      exact matchCell2_render (hf f (List.mem_cons_self f fs))
    have h2 : matchMore matchCell2 7 ((fs.map renderCell2).flatten ++ rest)
        = some (fs, rest) := by
      rw [← h7]
      exact matchMore_cells2 fs rest (fun g hg => hf g (List.mem_cons_of_mem f hg))
    show matchRowAt matchCell2 _ = _
    simp only [List.map_cons, List.flatten_cons, List.append_assoc]
    exact matchRowAt_succ h1 h2

theorem matchRow1At_head (c : Char) (cs : List Char) (hc : c ≠ '<') :
    matchRow1At (c :: cs) = none :=
  matchRow1At_fail (matchCell1_head hc)

theorem matchRow2At_head (c : Char) (cs : List Char) (hc : c ≠ '<') :
    matchRow2At (c :: cs) = none :=
  matchRow2At_fail (matchCell2_head hc)

theorem findAll_skip_chars
    {m : List Char → Option (List (List Char) × List Char)}
    (hm : ∀ c cs, c ≠ '<' → m (c :: cs) = none) :
    ∀ (seg rest : List Char), (∀ c ∈ seg, c ≠ '<') →
      findAll m (seg ++ rest) = findAll m rest := by
  intro seg
  induction seg with
  | nil => intro rest h; simp
  | cons c seg ih =>
    intro rest h
    have hc := h c (List.mem_cons_self c seg)
    rw [List.cons_append, findAll_skip (hm c _ hc),
      ih rest (fun a ha => h a (List.mem_cons_of_mem c ha))]

theorem skip_cell2_m1 {f : List Char} (rest : List Char) (hf : '<' ∉ f) :
    findAll matchRow1At (renderCell2 f ++ rest) = findAll matchRow1At rest := by
  have hne : ∀ c ∈ f, c ≠ '<' := fun c hc he => hf (he ▸ hc)
  rw [renderCell2_eq]
  refine (findAll_skip (matchRow1At_fail (matchCell1_td_div _))).trans ?_
  refine (findAll_skip_chars matchRow1At_head ['t', 'd', '>'] _ (by decide)).trans ?_
  refine (findAll_skip (matchRow1At_fail (matchCell1_lt (by decide)))).trans ?_
  refine (findAll_skip_chars matchRow1At_head ['d', 'i', 'v', '>'] _ (by decide)).trans ?_
  refine (findAll_skip_chars matchRow1At_head f _ hne).trans ?_
  refine (findAll_skip (matchRow1At_fail (matchCell1_lt (by decide)))).trans ?_
  refine (findAll_skip_chars matchRow1At_head ['/', 'd', 'i', 'v', '>'] _ (by decide)).trans ?_
  refine (findAll_skip (matchRow1At_fail (matchCell1_lt (by decide)))).trans ?_
  exact findAll_skip_chars matchRow1At_head ['/', 't', 'd', '>'] rest (by decide)

theorem skip_cell1_m2 {f : List Char} (rest : List Char) (hf : '<' ∉ f) :
    findAll matchRow2At (renderCell1 f ++ rest) = findAll matchRow2At rest := by
  have hne : ∀ c ∈ f, c ≠ '<' := fun c hc he => hf (he ▸ hc)
  rw [renderCell1_eq]
  refine (findAll_skip (matchRow2At_fail (matchCell2_bare hf))).trans ?_
  refine (findAll_skip_chars matchRow2At_head ['t', 'd', '>'] _ (by decide)).trans ?_
  refine (findAll_skip_chars matchRow2At_head f _ hne).trans ?_
  refine (findAll_skip (matchRow2At_fail (matchCell2_lt (by decide)))).trans ?_
  exact findAll_skip_chars matchRow2At_head ['/', 't', 'd', '>'] rest (by decide)

theorem skip_cells2_m1 :
    ∀ (fs : List (List Char)) (rest : List Char), (∀ f ∈ fs, '<' ∉ f) →
      findAll matchRow1At ((fs.map renderCell2).flatten ++ rest)
        = findAll matchRow1At rest := by
  intro fs
  induction fs with
  | nil => intro rest h; simp
  | cons f fs ih =>
    intro rest h
    simp only [List.map_cons, List.flatten_cons, List.append_assoc]
    refine (skip_cell2_m1 _ (h f (List.mem_cons_self f fs))).trans ?_
    exact ih rest (fun g hg => h g (List.mem_cons_of_mem f hg))

theorem skip_cells1_m2 :
    ∀ (fs : List (List Char)) (rest : List Char), (∀ f ∈ fs, '<' ∉ f) →
      findAll matchRow2At ((fs.map renderCell1).flatten ++ rest)
        = findAll matchRow2At rest := by
  intro fs
  induction fs with
  | nil => intro rest h; simp
  | cons f fs ih =>
    intro rest h
    simp only [List.map_cons, List.flatten_cons, List.append_assoc]
    refine (skip_cell1_m2 _ (h f (List.mem_cons_self f fs))).trans ?_
    exact ih rest (fun g hg => h g (List.mem_cons_of_mem f hg))

theorem skip_tr_m1 (cs : List Char) :
    findAll matchRow1At ('<' :: 't' :: 'r' :: '>' :: cs)
      = findAll matchRow1At cs :=
  (findAll_skip (matchRow1At_fail (matchCell1_lt_t (by decide)))).trans
    (findAll_skip_chars matchRow1At_head ['t', 'r', '>'] cs (by decide))

theorem skip_tr_m2 (cs : List Char) :
    findAll matchRow2At ('<' :: 't' :: 'r' :: '>' :: cs)
      = findAll matchRow2At cs :=
  (findAll_skip (matchRow2At_fail (matchCell2_lt_t (by decide)))).trans
    (findAll_skip_chars matchRow2At_head ['t', 'r', '>'] cs (by decide))

theorem skip_endtr_m1 (cs : List Char) :
    findAll matchRow1At ('<' :: '/' :: 't' :: 'r' :: '>' :: cs)
      = findAll matchRow1At cs :=
  (findAll_skip (matchRow1At_fail (matchCell1_lt (by decide)))).trans
    (findAll_skip_chars matchRow1At_head ['/', 't', 'r', '>'] cs (by decide))

theorem skip_endtr_m2 (cs : List Char) :
    findAll matchRow2At ('<' :: '/' :: 't' :: 'r' :: '>' :: cs)
      = findAll matchRow2At cs :=
  (findAll_skip (matchRow2At_fail (matchCell2_lt (by decide)))).trans
    (findAll_skip_chars matchRow2At_head ['/', 't', 'r', '>'] cs (by decide))

theorem renderRow_bare_eq (r : Row) (h : r.shape = CellShape.bare)
    (rest : List Char) :
    renderRow r ++ rest
      = '<' :: 't' :: 'r' :: '>' ::
          ((r.fields.map renderCell1).flatten ++
            ('<' :: '/' :: 't' :: 'r' :: '>' :: rest)) := by
  simp [renderRow, h]

theorem renderRow_wrapped_eq (r : Row) (h : r.shape = CellShape.wrapped)
    (rest : List Char) :
    renderRow r ++ rest
      = '<' :: 't' :: 'r' :: '>' ::
          ((r.fields.map renderCell2).flatten ++
            ('<' :: '/' :: 't' :: 'r' :: '>' :: rest)) := by
  simp [renderRow, h]

theorem findAll1_doc :
    ∀ rows : List Row, (∀ r ∈ rows, WFRow r) →
      findAll matchRow1At (renderDoc rows)
        = (rows.filter isBare).map Row.fields := by
  intro rows
  induction rows with
  | nil =>
    intro h
    simp [renderDoc, findAll_nil matchRow1At_consumes]
  | cons r rows ih =>
    intro h
    obtain ⟨hlen, hfields⟩ := h r (List.mem_cons_self r rows)
    have hrest : ∀ r2 ∈ rows, WFRow r2 :=
      fun r2 h2 => h r2 (List.mem_cons_of_mem r h2)
    have hdoc : renderDoc (r :: rows) = renderRow r ++ renderDoc rows := by
      simp [renderDoc]
    rw [hdoc]
    cases hshape : r.shape with
    | bare =>
      rw [renderRow_bare_eq r hshape, skip_tr_m1,
        findAll_match matchRow1At_consumes (matchRow1_render hlen hfields),
        skip_endtr_m1, ih hrest]
      simp [List.filter_cons, isBare, hshape]
    | wrapped =>
      rw [renderRow_wrapped_eq r hshape, skip_tr_m1,
        skip_cells2_m1 r.fields _ hfields, skip_endtr_m1, ih hrest]
      simp [List.filter_cons, isBare, hshape]

theorem findAll2_doc :
    ∀ rows : List Row, (∀ r ∈ rows, WFRow r) →
      findAll matchRow2At (renderDoc rows)
        = (rows.filter (fun r => !(isBare r))).map Row.fields := by
  intro rows
  induction rows with
  | nil =>
    intro h
    simp [renderDoc, findAll_nil matchRow2At_consumes]
  | cons r rows ih =>
    intro h
    obtain ⟨hlen, hfields⟩ := h r (List.mem_cons_self r rows)
    have hrest : ∀ r2 ∈ rows, WFRow r2 :=
      fun r2 h2 => h r2 (List.mem_cons_of_mem r h2)
    have hdoc : renderDoc (r :: rows) = renderRow r ++ renderDoc rows := by
      simp [renderDoc]
    rw [hdoc]
    cases hshape : r.shape with
    | bare =>
      rw [renderRow_bare_eq r hshape, skip_tr_m2,
        skip_cells1_m2 r.fields _ hfields, skip_endtr_m2, ih hrest]
      simp [List.filter_cons, isBare, hshape]
    | wrapped =>
      rw [renderRow_wrapped_eq r hshape, skip_tr_m2,
        findAll_match matchRow2At_consumes (matchRow2_render hlen hfields),
        skip_endtr_m2, ih hrest]
      simp [List.filter_cons, isBare, hshape]

theorem firstOccur_eq_self :
    ∀ {ms : List (List (List Char))}, (ms.map rowKey).Nodup →
      firstOccur ms = ms := by
  intro ms
  induction ms with
  | nil => intro h; simp [firstOccur]
  | cons m ms ih =>
    intro h
    simp only [List.map_cons, List.nodup_cons] at h
    obtain ⟨hm, hms⟩ := h
    rw [firstOccur]
    have hfil : ms.filter (fun m2 => decide (rowKey m2 ≠ rowKey m)) = ms := by
      apply List.filter_eq_self.mpr
      intro m2 hm2
      have : rowKey m2 ≠ rowKey m := by
        intro he
        exact hm (he ▸ List.mem_map_of_mem rowKey hm2)
      simpa using this
    rw [hfil, ih hms]

theorem exists_eight {α : Type} {l : List α} (h : l.length = 8) :
    ∃ a b c d e f g i, l = [a, b, c, d, e, f, g, i] := by
  obtain ⟨a, l1, rfl⟩ := List.exists_of_length_succ l h
  obtain ⟨b, l2, rfl⟩ := List.exists_of_length_succ l1 (by simpa using h)
  obtain ⟨c, l3, rfl⟩ := List.exists_of_length_succ l2 (by simpa using h)
  obtain ⟨d, l4, rfl⟩ := List.exists_of_length_succ l3 (by simpa using h)
  obtain ⟨e, l5, rfl⟩ := List.exists_of_length_succ l4 (by simpa using h)
  obtain ⟨f, l6, rfl⟩ := List.exists_of_length_succ l5 (by simpa using h)
  obtain ⟨g, l7, rfl⟩ := List.exists_of_length_succ l6 (by simpa using h)
  obtain ⟨i, l8, rfl⟩ := List.exists_of_length_succ l7 (by simpa using h)
  have hnil : l8 = [] := by
    have h0 := h
    simp at h0
    exact h0
  subst hnil
  exact ⟨a, b, c, d, e, f, g, i, rfl⟩

theorem filterMap_buildRecord (gt : GoldType) (now : String) :
    ∀ ls : List (List (List Char)),
      (∀ fs ∈ ls, fs.length = 8 ∧ RowValid fs) →
      ls.filterMap (buildRecord gt now) = ls.map (rowRecord gt now) := by
  intro ls
  induction ls with
  | nil => intro h; rfl
  | cons fs ls ih =>
    intro h
    obtain ⟨hlen, hval⟩ := h fs (List.mem_cons_self fs ls)
    obtain ⟨d, b, p, pr, u, pu, cf, tr, rfl⟩ := exists_eight hlen
    have hv : ValidRow d b p pr u := hval
    rw [List.filterMap_cons, List.map_cons, buildRecord_pos hv,
      ih (fun g hg => h g (List.mem_cons_of_mem _ hg))]
    rfl

set_option maxRecDepth 100000 in
/-- Claim C3 (amended): a well-formed document of N rows in the two
markup shapes, with required fields valid and pairwise-distinct keys,
yields exactly N records; they appear with all bare-shape rows first (in
document order) followed by all wrapped-shape rows (in document order),
not in global document order. -/
theorem C3_extraction_order (rows : List Row) (gt : GoldType) (now : String)
    (hwf : ∀ r ∈ rows, WFRow r ∧ RowValid r.fields)
    (hkeys : (rows.map (fun r => rowKey r.fields)).Nodup) :
    parse_complete_gold_data (renderDoc rows) gt now
      = ((rows.filter isBare).map (fun r => rowRecord gt now r.fields)) ++
        ((rows.filter (fun r => !(isBare r))).map
          (fun r => rowRecord gt now r.fields)) ∧
    (parse_complete_gold_data (renderDoc rows) gt now).length = rows.length := by
  have h1 : findAll matchRow1At (renderDoc rows)
      = (rows.filter isBare).map Row.fields :=
    findAll1_doc rows (fun r hr => (hwf r hr).1)
  have h2 : findAll matchRow2At (renderDoc rows)
      = (rows.filter (fun r => !(isBare r))).map Row.fields :=
    findAll2_doc rows (fun r hr => (hwf r hr).1)
  have hperm2 : ((rows.filter isBare).map Row.fields ++
      (rows.filter (fun r => !(isBare r))).map Row.fields).Perm
        (rows.map Row.fields) := by
    rw [← List.map_append]
    exact (List.filter_append_perm isBare rows).map Row.fields
  have h8 : ∀ fs ∈ (rows.filter isBare).map Row.fields ++
      (rows.filter (fun r => !(isBare r))).map Row.fields,
      fs.length = 8 ∧ RowValid fs := by
    intro fs hfs
    have hmem : fs ∈ rows.map Row.fields := hperm2.mem_iff.mp hfs
    obtain ⟨r, hr, rfl⟩ := List.mem_map.mp hmem
    exact ⟨(hwf r hr).1.1, (hwf r hr).2⟩
  have hkeys2 : (((rows.filter isBare).map Row.fields ++
      (rows.filter (fun r => !(isBare r))).map Row.fields).map rowKey).Nodup := by
    have hp := hperm2.map rowKey
    rw [List.map_map] at hp
    exact hp.nodup_iff.mpr hkeys
  have hdd : dedupMatches ((rows.filter isBare).map Row.fields ++
      (rows.filter (fun r => !(isBare r))).map Row.fields)
      = (rows.filter isBare).map Row.fields ++
        (rows.filter (fun r => !(isBare r))).map Row.fields := by
    rw [dedupMatches, dedupGo_eq_firstOccur _ [] (fun m hm => (h8 m hm).1)]
    rw [List.filter_eq_self.mpr (by intro m hm; simp)]
    exact firstOccur_eq_self hkeys2
  have hparse : parse_complete_gold_data (renderDoc rows) gt now
      = ((rows.filter isBare).map Row.fields ++
        (rows.filter (fun r => !(isBare r))).map Row.fields).map
          (rowRecord gt now) := by
    rw [parse_complete_gold_data, h1, h2, hdd]
    exact filterMap_buildRecord gt now _ h8
  constructor
  · rw [hparse, List.map_append, List.map_map, List.map_map]
    rfl
  · rw [hparse, List.length_map]
    rw [hperm2.length_eq, List.length_map]

/-- A wrapped-shape row followed by a bare-shape row, well-formed with
distinct keys. -/
def mixedRows : List Row :=
  [ { shape := CellShape.wrapped,
      fields := [ "d1".data, "b1".data, "p1".data, "pa".data, "u1".data,
        "x9".data, "f1".data, "up".data] },
    { shape := CellShape.bare,
      fields := [ "d2".data, "b2".data, "p2".data, "pb".data, "u2".data,
        "x0".data, "f2".data, "dn".data] } ]

def emptyRow : Row := { shape := CellShape.bare, fields := [] }

set_option maxRecDepth 100000 in
/-- Claim C3 counterexample: for the document holding a wrapped row then
a bare row, extraction returns both records but with the bare (second)
row first — not in the order the rows occur in the document. -/
theorem C3_counterexample :
    parse_complete_gold_data (renderDoc mixedRows) GoldType.jewelry tNow
      = [rowRecord GoldType.jewelry tNow (mixedRows.getD 1 emptyRow).fields,
         rowRecord GoldType.jewelry tNow (mixedRows.getD 0 emptyRow).fields] ∧
    parse_complete_gold_data (renderDoc mixedRows) GoldType.jewelry tNow
      ≠ [rowRecord GoldType.jewelry tNow (mixedRows.getD 0 emptyRow).fields,
         rowRecord GoldType.jewelry tNow (mixedRows.getD 1 emptyRow).fields] := by
  constructor
  · decide
  · decide

set_option maxRecDepth 100000 in
/-- Claim C3 witness: the amended statement applied to the two-row mixed
document. -/
theorem C3_witness :
    parse_complete_gold_data (renderDoc mixedRows) GoldType.jewelry tNow
      = ((mixedRows.filter isBare).map
          (fun r => rowRecord GoldType.jewelry tNow r.fields)) ++
        ((mixedRows.filter (fun r => !(isBare r))).map
          (fun r => rowRecord GoldType.jewelry tNow r.fields)) ∧
    (parse_complete_gold_data (renderDoc mixedRows) GoldType.jewelry tNow).length
      = mixedRows.length :=
  C3_extraction_order mixedRows GoldType.jewelry tNow (by decide) (by decide)

end PyGold
